import Mathlib

/-!
Verification of the modelbase2 specification.

The repository sources provided here consist of documentation notebooks and
configuration; the library code itself (model builder, simulator, scan
utilities, label mappers) is not among them.  Every executable definition
below is therefore modelled from the specification text, as indicated by the
doc comments, and the theorems settle the specification's claims against
these definitions.  Numeric values are rationals, so the "within numerical
tolerance" phrases of the specification become exact equalities.
-/

namespace Modelbase2

/-! ### Generic list-sum helpers -/

/-- Sum of a two-level list sum can be exchanged. -/
lemma sum_map_comm {α β : Type} (l1 : List α) (l2 : List β) (f : α → β → ℚ) :
    (l1.map (fun a => (l2.map (f a)).sum)).sum
      = (l2.map (fun b => (l1.map (fun a => f a b)).sum)).sum := by
  induction l1 with
  | nil => simp
  | cons x xs ih => simp [List.sum_map_add, ih]

/-- Mapping then summing over a flatMap equals the nested sum. -/
lemma sum_map_bind {α β : Type} (xs : List α) (f : α → List β) (g : β → ℚ) :
    (((xs.flatMap f)).map g).sum = (xs.map (fun x => ((f x).map g).sum)).sum := by
  induction xs with
  | nil => simp
  | cons x xs ih => simp [List.flatMap_cons, ih]

/-- Pulling a constant factor out of a mapped sum, on the left. -/
lemma sum_map_mul_left' {α : Type} (l : List α) (a : ℚ) (f : α → ℚ) :
    (l.map (fun x => a * f x)).sum = a * (l.map f).sum := by
  induction l with
  | nil => simp
  | cons x xs ih => simp [ih]; ring

/-- Pulling a constant factor out of a mapped sum, on the right. -/
lemma sum_map_mul_right' {α : Type} (l : List α) (a : ℚ) (f : α → ℚ) :
    (l.map (fun x => f x * a)).sum = (l.map f).sum * a := by
  induction l with
  | nil => simp
  | cons x xs ih => simp [ih]; ring

/-- Summing an indicator of an out-of-range value gives zero. -/
lemma sum_range_ite_eq_zero (M m : ℕ) (hm : ¬ m < M) (f : ℕ → ℚ) :
    ((List.range M).map (fun b => if b = m then f b else 0)).sum = 0 := by
  rw [List.sum_eq_zero]
  intro x hx
  simp at hx
  obtain ⟨b, hb, rfl⟩ := hx
  have : b ≠ m := by omega
  simp [this]

/-- Summing an indicator of a fixed in-range value over an initial segment
picks out that value. -/
lemma sum_range_ite_eq (M m : ℕ) (hm : m < M) (f : ℕ → ℚ) :
    ((List.range M).map (fun b => if b = m then f b else 0)).sum = f m := by
  induction M with
  | zero => omega
  | succ M ih =>
    rw [List.range_succ]
    rcases Nat.lt_succ_iff_lt_or_eq.mp hm with h | h
    · have hMm : M ≠ m := by omega
      simp [ih h, hMm]
    · subst h
      simp [sum_range_ite_eq_zero m m (lt_irrefl m)]

/-! ### Parameter-combination tables -/

/-- Modelled from the spec: `cartesian_product(mapping: name → sequence)`
returns the combination table where the rightmost-declared parameter varies
fastest and earlier-declared parameters vary slowest (outer-to-inner nested
iteration).  The Python implementation is not among the provided sources;
the ordered mapping is a list of (name, value-sequence) pairs and each row
is the list of chosen values, aligned with the declared names. -/
def cartesian_product : List (String × List ℚ) → List (List ℚ)
  | [] => [[]]
  | (_, vs) :: rest => vs.flatMap (fun x => (cartesian_product rest).map (fun row => x :: row))

/-- The number of rows of a cartesian product table is the product of the
lengths of the input sequences. -/
lemma cartesian_product_length (m : List (String × List ℚ)) :
    (cartesian_product m).length = (m.map (fun kv => kv.2.length)).prod := by
  induction m with
  | nil => simp [cartesian_product]
  | cons kv rest ih =>
    obtain ⟨k, vs⟩ := kv
    simp [cartesian_product, Function.comp, ih]
    induction vs with
    | nil => simp
    | cons x xs ihx => simp [ihx, ih]; ring

/-! ### Scan orchestration -/

/-- Result row of a scan: either a row of numeric values or an all-NaN row
recording a failed run. -/
inductive ScanRow where
  | nanRow : ScanRow
  | values : List ℚ → ScanRow
deriving DecidableEq

/-- Modelled from the spec: the ScanOrchestrator's per-row execution
(`scan.steady_state` and friends; the Python implementation is not among the
provided sources).  For each row of the parameters table a fresh model is
instantiated and run by `run`; a failed run (`none`) is recorded as a NaN
row at that index instead of aborting the scan. -/
def scan_rows (run : List (String × ℚ) → Option (List ℚ))
    (table : List (List (String × ℚ))) : List ScanRow :=
  table.map (fun row =>
    match run row with
    | none => ScanRow.nanRow
    | some vs => ScanRow.values vs)

/-! ### Protocol simulation -/

/-- Modelled from the spec: parameter overrides rewrite the named values in
place, leaving all other parameters untouched. -/
def applyOverrides (p : String → ℚ) (ov : List (String × ℚ)) : String → ℚ :=
  fun k =>
    match ov.find? (fun e => e.1 = k) with
    | some e => e.2
    | none => p k

/-- Modelled from the spec: `simulate(protocol)` applies segments in order.
For the i-th segment the overrides are applied to the current parameters,
then the abstract integrator `solve` (parameters, duration, entry state →
exit state) runs over the segment's half-open time span starting from the
state at the end of the previous segment.  The returned trajectory samples
every segment boundary exactly once: entry point of each segment plus the
final state, so consecutive segments share no duplicated sample and leave
no gap. -/
def simulateProtocol {S : Type} (solve : (String → ℚ) → ℚ → S → S)
    (p : String → ℚ) (s : S) (t : ℚ) :
    List (ℚ × List (String × ℚ)) → List (ℚ × S)
  | [] => [(t, s)]
  | (d, ov) :: rest =>
      (t, s) :: simulateProtocol solve (applyOverrides p ov) (solve (applyOverrides p ov) d s) (t + d) rest

/-- Parameters in effect during segment i: the initial parameters updated by
the overrides of segments 0..i, in order. -/
def paramsAt (p : String → ℚ) : List (ℚ × List (String × ℚ)) → ℕ → (String → ℚ)
  | [], _ => p
  | (_, ov) :: _, 0 => applyOverrides p ov
  | (_, ov) :: rest, i + 1 => paramsAt (applyOverrides p ov) rest i

/-- A protocol trajectory has one entry per segment plus the final state. -/
lemma simulateProtocol_length {S : Type} (solve : (String → ℚ) → ℚ → S → S)
    (protocol : List (ℚ × List (String × ℚ))) :
    ∀ p s t, (simulateProtocol solve p s t protocol).length = protocol.length + 1 := by
  induction protocol with
  | nil => intro p s t; simp [simulateProtocol]
  | cons seg rest ih =>
    intro p s t
    obtain ⟨d, ov⟩ := seg
    simp [simulateProtocol, ih]

/-- Indexing into a mapped list below the length applies the function to the
indexed element. -/
lemma getD_map_lt {α β : Type} (f : α → β) (l : List α) (i : ℕ) (h : i < l.length)
    (d : β) (d' : α) : (l.map f).getD i d = f (l.getD i d') := by
  induction l generalizing i with
  | nil => simp at h
  | cons x xs ih =>
    cases i with
    | zero => simp
    | succ i =>
      simp only [List.map_cons, List.getD_cons_succ]
      exact ih i (by simpa using h)

/-- The first sampled point of a protocol trajectory is the entry time and
entry state. -/
lemma simulateProtocol_head {S : Type} (solve : (String → ℚ) → ℚ → S → S)
    (protocol : List (ℚ × List (String × ℚ))) (p : String → ℚ) (s : S) (t : ℚ)
    (d : ℚ × S) : (simulateProtocol solve p s t protocol).getD 0 d = (t, s) := by
  cases protocol with
  | nil => simp [simulateProtocol]
  | cons seg rest => obtain ⟨dd, ov⟩ := seg; simp [simulateProtocol]

/-- Sampled times of a protocol trajectory are strictly increasing when all
durations are positive. -/
lemma simulateProtocol_times {S : Type} (solve : (String → ℚ) → ℚ → S → S)
    (protocol : List (ℚ × List (String × ℚ))) :
    ∀ p s t, (∀ seg ∈ protocol, 0 < seg.1) →
      List.Chain' (fun a b => a.1 < b.1) (simulateProtocol solve p s t protocol) := by
  induction protocol with
  | nil => intro p s t _; simp [simulateProtocol]
  | cons seg rest ih =>
    intro p s t hd
    obtain ⟨d, ov⟩ := seg
    have hdp : 0 < d := hd (d, ov) (by simp)
    rw [simulateProtocol, List.chain'_cons']
    constructor
    · intro b hb
      have hhead := simulateProtocol_head solve rest (applyOverrides p ov)
        (solve (applyOverrides p ov) d s) (t + d) (t, s)
      cases hrest : simulateProtocol solve (applyOverrides p ov)
          (solve (applyOverrides p ov) d s) (t + d) rest with
      | nil =>
        rw [hrest] at hb; simp at hb
      | cons x xs =>
        rw [hrest] at hb hhead
        simp at hb hhead
        rw [← hb, hhead]
        simp only []
        linarith
    · exact ih _ _ _ (fun seg hs => hd seg (by simp [hs]))

/-- At each segment boundary the sampled time advances by exactly the
segment's duration and the state advances by integrating that segment with
the overridden parameters. -/
lemma simulateProtocol_step {S : Type} (solve : (String → ℚ) → ℚ → S → S)
    (protocol : List (ℚ × List (String × ℚ))) :
    ∀ p s t i (d0 : ℚ × S), i < protocol.length →
      ((simulateProtocol solve p s t protocol).getD (i + 1) d0).1
          = ((simulateProtocol solve p s t protocol).getD i d0).1
            + (protocol.getD i (0, [])).1 ∧
      ((simulateProtocol solve p s t protocol).getD (i + 1) d0).2
          = solve (paramsAt p protocol i) (protocol.getD i (0, [])).1
              ((simulateProtocol solve p s t protocol).getD i d0).2 := by
  induction protocol with
  | nil => intro p s t i d0 hi; simp at hi
  | cons seg rest ih =>
    intro p s t i d0 hi
    obtain ⟨d, ov⟩ := seg
    cases i with
    | zero =>
      rw [simulateProtocol]
      simp only [List.getD_cons_succ, List.getD_cons_zero]
      rw [simulateProtocol_head]
      exact ⟨rfl, rfl⟩
    | succ i =>
      rw [simulateProtocol]
      simp only [List.getD_cons_succ]
      have hi' : i < rest.length := by simpa using hi
      have := ih (applyOverrides p ov) (solve (applyOverrides p ov) d s) (t + d) i d0 hi'
      constructor
      · simpa [paramsAt] using this.1
      · simpa [paramsAt] using this.2

/-! ### Model builder namespace checks -/

/-- Structural error raised by the model-builder add operations. -/
inductive DefinitionError where
  | duplicateName : String → DefinitionError
  | unknownName : String → DefinitionError
deriving DecidableEq

/-- Modelled from the spec: the model's single named namespace holding
parameters, state variables, derived quantities and reactions (the Python
`Model` class is not among the provided sources).  Function handles are
irrelevant to the namespace checks and are omitted; reactions keep their
argument names and stoichiometry. -/
structure QModel where
  parameters : List (String × ℚ)
  vars : List (String × ℚ)
  derived : List (String × List String)
  reactions : List (String × List String × List (String × ℚ))

/-- All names declared anywhere in the namespace. -/
def QModel.names (m : QModel) : List String :=
  m.parameters.map Prod.fst ++ m.vars.map Prod.fst
    ++ m.derived.map Prod.fst ++ m.reactions.map Prod.fst

/-- Modelled from the spec: adding one parameter fails at call time when the
name already exists anywhere in the namespace. -/
def QModel.add_parameter (m : QModel) (name : String) (value : ℚ) :
    Except DefinitionError QModel :=
  if name ∈ m.names then .error (.duplicateName name)
  else .ok { m with parameters := m.parameters ++ [(name, value)] }

/-- Modelled from the spec: `add_parameters` adds each mapping entry in
order, failing on the first duplicate name. -/
def QModel.add_parameters (m : QModel) : List (String × ℚ) → Except DefinitionError QModel
  | [] => .ok m
  | p :: rest =>
    match m.add_parameter p.1 p.2 with
    | .error e => .error e
    | .ok m' => m'.add_parameters rest

/-- Modelled from the spec: adding one variable fails at call time when the
name already exists anywhere in the namespace. -/
def QModel.add_variable (m : QModel) (name : String) (value : ℚ) :
    Except DefinitionError QModel :=
  if name ∈ m.names then .error (.duplicateName name)
  else .ok { m with vars := m.vars ++ [(name, value)] }

/-- Modelled from the spec: `add_variables` adds each mapping entry in
order, failing on the first duplicate name. -/
def QModel.add_variables (m : QModel) : List (String × ℚ) → Except DefinitionError QModel
  | [] => .ok m
  | p :: rest =>
    match m.add_variable p.1 p.2 with
    | .error e => .error e
    | .ok m' => m'.add_variables rest

/-- First argument name not previously declared, if any. -/
def QModel.firstUnknown (m : QModel) (args : List String) : Option String :=
  args.find? (fun a => !(m.names.contains a))

/-- Modelled from the spec: `add_derived(name, fn, args)` fails at call time
on a duplicate name or an argument name that was not previously declared. -/
def QModel.add_derived (m : QModel) (name : String) (args : List String) :
    Except DefinitionError QModel :=
  if name ∈ m.names then .error (.duplicateName name)
  else
    match m.firstUnknown args with
    | some a => .error (.unknownName a)
    | none => .ok { m with derived := m.derived ++ [(name, args)] }

/-- First stoichiometry key that is not a declared variable, if any. -/
def QModel.firstUnknownVariable (m : QModel) (st : List (String × ℚ)) : Option String :=
  (st.map Prod.fst).find? (fun k => !((m.vars.map Prod.fst).contains k))

/-- Modelled from the spec: `add_reaction(name, fn, args, stoichiometry)`
fails at call time on a duplicate name, an undeclared argument name, or a
stoichiometry key that is not an existing variable name. -/
def QModel.add_reaction (m : QModel) (name : String) (args : List String)
    (st : List (String × ℚ)) : Except DefinitionError QModel :=
  if name ∈ m.names then .error (.duplicateName name)
  else
    match m.firstUnknown args with
    | some a => .error (.unknownName a)
    | none =>
      match m.firstUnknownVariable st with
      | some k => .error (.unknownName k)
      | none => .ok { m with reactions := m.reactions ++ [(name, args, st)] }

/-! ### Simulator result accessors -/

/-- Tabular data of one successful simulation run. -/
structure SimData where
  concs : List (String × List ℚ)
  fluxes : List (String × List ℚ)
  fullConcs : List (String × List ℚ)

/-- Modelled from the spec: a simulator run ends in a failure-tagged result;
`result = none` records an integration failure, which is not raised across
the simulate boundary. -/
structure SimState where
  result : Option SimData

/-- Modelled from the spec: `get_concs` returns the concentrations table, or
None when the underlying simulation failed. -/
def SimState.get_concs (s : SimState) : Option (List (String × List ℚ)) :=
  s.result.map (fun d => d.concs)

/-- Modelled from the spec: `get_full_concs` returns all isotopomer-variant
concentrations, or None when the underlying simulation failed. -/
def SimState.get_full_concs (s : SimState) : Option (List (String × List ℚ)) :=
  s.result.map (fun d => d.fullConcs)

/-- Modelled from the spec: `get_concs_and_fluxes` returns the pair of
tables, or None when the underlying simulation failed. -/
def SimState.get_concs_and_fluxes (s : SimState) :
    Option (List (String × List ℚ) × List (String × List ℚ)) :=
  s.result.map (fun d => (d.concs, d.fluxes))

/-- Modelled from the spec: `get_results` returns the combined table, or
None when the underlying simulation failed. -/
def SimState.get_results (s : SimState) : Option (List (String × List ℚ)) :=
  s.result.map (fun d => d.concs ++ d.fluxes)

/-- An Except value is an error exactly when it is not a success. -/
lemma except_error_iff {ε α : Type} (x : Except ε α) :
    (∃ e, x = .error e) ↔ ¬ ∃ a, x = .ok a := by
  cases x <;> simp

/-- Membership in the namespace after appending one parameter. -/
lemma mem_names_add_parameter (m : QModel) (n : String) (v : ℚ) (x : String) :
    x ∈ (QModel.mk (m.parameters ++ [(n, v)]) m.vars m.derived m.reactions).names
      ↔ x ∈ m.names ∨ x = n := by
  simp only [QModel.names, List.map_append, List.mem_append, List.map_cons, List.map_nil,
    List.mem_singleton]
  tauto

/-- Membership in the namespace after appending one variable. -/
lemma mem_names_add_variable (m : QModel) (n : String) (v : ℚ) (x : String) :
    x ∈ (QModel.mk m.parameters (m.vars ++ [(n, v)]) m.derived m.reactions).names
      ↔ x ∈ m.names ∨ x = n := by
  simp only [QModel.names, List.map_append, List.mem_append, List.map_cons, List.map_nil,
    List.mem_singleton]
  tauto

/-- The batched parameter add fails exactly when some batch name collides
with the namespace or the batch itself repeats a name. -/
lemma add_parameters_error_iff (ps : List (String × ℚ)) :
    ∀ m : QModel, (∃ e, m.add_parameters ps = .error e)
      ↔ ¬ ((∀ p ∈ ps, p.1 ∉ m.names) ∧ (ps.map Prod.fst).Nodup) := by
  induction ps with
  | nil => intro m; simp [QModel.add_parameters]
  | cons p rest ih =>
    intro m
    rw [QModel.add_parameters, QModel.add_parameter]
    by_cases hp : p.1 ∈ m.names
    · simp [hp]
    · simp only [hp, if_false]
      rw [ih]
      have hkey : ((∀ q ∈ rest,
            q.1 ∉ (QModel.mk (m.parameters ++ [(p.1, p.2)]) m.vars m.derived m.reactions).names)
              ∧ (rest.map Prod.fst).Nodup)
          ↔ ((∀ q ∈ p :: rest, q.1 ∉ m.names) ∧ ((p :: rest).map Prod.fst).Nodup) := by
        simp only [List.map_cons, List.nodup_cons, List.mem_map, List.mem_cons]
        constructor
        · rintro ⟨hfresh, hnodup⟩
          refine ⟨?_, ?_, hnodup⟩
          · rintro q (rfl | hq)
            · exact hp
            · have := hfresh q hq
              rw [mem_names_add_parameter] at this
              tauto
          · rintro ⟨q, hq, hqe⟩
            have := hfresh q hq
            rw [mem_names_add_parameter] at this
            tauto
        · rintro ⟨hfresh, hpq, hnodup⟩
          refine ⟨?_, hnodup⟩
          intro q hq
          rw [mem_names_add_parameter]
          push_neg
          exact ⟨hfresh q (Or.inr hq), fun he => hpq ⟨q, hq, he⟩⟩
      exact not_congr hkey

/-- The batched variable add fails exactly when some batch name collides
with the namespace or the batch itself repeats a name. -/
lemma add_variables_error_iff (ps : List (String × ℚ)) :
    ∀ m : QModel, (∃ e, m.add_variables ps = .error e)
      ↔ ¬ ((∀ p ∈ ps, p.1 ∉ m.names) ∧ (ps.map Prod.fst).Nodup) := by
  induction ps with
  | nil => intro m; simp [QModel.add_variables]
  | cons p rest ih =>
    intro m
    rw [QModel.add_variables, QModel.add_variable]
    by_cases hp : p.1 ∈ m.names
    · simp [hp]
    · simp only [hp, if_false]
      rw [ih]
      have hkey : ((∀ q ∈ rest,
            q.1 ∉ (QModel.mk m.parameters (m.vars ++ [(p.1, p.2)]) m.derived m.reactions).names)
              ∧ (rest.map Prod.fst).Nodup)
          ↔ ((∀ q ∈ p :: rest, q.1 ∉ m.names) ∧ ((p :: rest).map Prod.fst).Nodup) := by
        simp only [List.map_cons, List.nodup_cons, List.mem_map, List.mem_cons]
        constructor
        · rintro ⟨hfresh, hnodup⟩
          refine ⟨?_, ?_, hnodup⟩
          · rintro q (rfl | hq)
            · exact hp
            · have := hfresh q hq
              rw [mem_names_add_variable] at this
              tauto
          · rintro ⟨q, hq, hqe⟩
            have := hfresh q hq
            rw [mem_names_add_variable] at this
            tauto
        · rintro ⟨hfresh, hpq, hnodup⟩
          refine ⟨?_, hnodup⟩
          intro q hq
          rw [mem_names_add_variable]
          push_neg
          exact ⟨hfresh q (Or.inr hq), fun he => hpq ⟨q, hq, he⟩⟩
      exact not_congr hkey

/-- The derived-quantity add fails exactly on a duplicate name or an
undeclared argument. -/
lemma add_derived_error_iff (m : QModel) (name : String) (args : List String) :
    (∃ e, m.add_derived name args = .error e)
      ↔ name ∈ m.names ∨ ∃ a ∈ args, a ∉ m.names := by
  rw [QModel.add_derived]
  by_cases hn : name ∈ m.names
  · simp [hn]
  · simp only [hn, if_false, false_or]
    cases hfu : m.firstUnknown args with
    | some a =>
      constructor
      · intro _
        have hpa := List.find?_some hfu
        have hmem := List.mem_of_find?_eq_some hfu
        exact ⟨a, hmem, by simpa using hpa⟩
      · intro _; exact ⟨.unknownName a, rfl⟩
    | none =>
      constructor
      · rintro ⟨e, he⟩; cases he
      · rintro ⟨a, ha, hna⟩
        have : a ∈ m.names := by simpa using List.find?_eq_none.mp hfu a ha
        exact absurd this hna

/-- The reaction add fails exactly on a duplicate name, an undeclared
argument, or a stoichiometry key that is not a declared variable. -/
lemma add_reaction_error_iff (m : QModel) (name : String) (args : List String)
    (st : List (String × ℚ)) :
    (∃ e, m.add_reaction name args st = .error e)
      ↔ name ∈ m.names ∨ (∃ a ∈ args, a ∉ m.names)
        ∨ ∃ k ∈ st.map Prod.fst, k ∉ m.vars.map Prod.fst := by
  rw [QModel.add_reaction]
  by_cases hn : name ∈ m.names
  · simp [hn]
  · simp only [hn, if_false, false_or]
    cases hfu : m.firstUnknown args with
    | some a =>
      constructor
      · intro _
        have hpa := List.find?_some hfu
        have hmem := List.mem_of_find?_eq_some hfu
        exact Or.inl ⟨a, hmem, by simpa using hpa⟩
      · intro _; exact ⟨.unknownName a, rfl⟩
    | none =>
      have hargs : ¬ ∃ a ∈ args, a ∉ m.names := by
        rintro ⟨a, ha, hna⟩
        have : a ∈ m.names := by simpa using List.find?_eq_none.mp hfu a ha
        exact absurd this hna
      cases hfv : m.firstUnknownVariable st with
      | some k =>
        simp only [hargs, false_or]
        constructor
        · intro _
          have hpk := List.find?_some hfv
          have hmem := List.mem_of_find?_eq_some hfv
          exact ⟨k, hmem, by simpa using hpk⟩
        · intro _; exact ⟨.unknownName k, rfl⟩
      | none =>
        simp only [hargs, false_or]
        constructor
        · rintro ⟨e, he⟩; cases he
        · rintro ⟨k, hk, hnk⟩
          have : k ∈ m.vars.map Prod.fst := by
            simpa using List.find?_eq_none.mp hfv k hk
          exact absurd this hnk

/-! ### Claim C6 -/

/-- C6: `cartesian_product {k1 ↦ [1,2], k2 ↦ [3,4]}` returns exactly the
four rows (1,3), (1,4), (2,3), (2,4) in that order (rightmost-declared
parameter varying fastest), and in general the row count equals the product
of the input sequence lengths. -/
theorem cartesian_product_order_and_count :
    cartesian_product [("k1", [1, 2]), ("k2", [3, 4])]
        = [[1, 3], [1, 4], [2, 3], [2, 4]] ∧
    ∀ m : List (String × List ℚ),
      (cartesian_product m).length = (m.map (fun kv => kv.2.length)).prod := by
  exact ⟨rfl, cartesian_product_length⟩

/-! ### Claim C7 -/

/-- C7: a scan's output table has one row per input row in the same order;
the row at index i is a NaN row exactly when the run for input row i
failed, and carries that run's numeric values otherwise, so a single
failing combination never aborts the scan. -/
theorem scan_row_alignment (run : List (String × ℚ) → Option (List ℚ))
    (table : List (List (String × ℚ))) :
    (scan_rows run table).length = table.length ∧
    ∀ i, i < table.length →
      ((run (table.getD i []) = none →
          (scan_rows run table).getD i ScanRow.nanRow = ScanRow.nanRow) ∧
       (∀ vs, run (table.getD i []) = some vs →
          (scan_rows run table).getD i ScanRow.nanRow = ScanRow.values vs)) := by
  constructor
  · simp [scan_rows]
  · intro i hi
    have hrow := getD_map_lt
      (fun row => match run row with
        | none => ScanRow.nanRow
        | some vs => ScanRow.values vs) table i hi ScanRow.nanRow []
    constructor
    · intro hfail
      rw [scan_rows, hrow, hfail]
    · intro vs hok
      rw [scan_rows, hrow, hok]

/-- Witness for C7: with a three-row table whose middle combination fails,
the output has three rows, a NaN row at index 1, and the numeric rows of
the other combinations at indices 0 and 2. -/
theorem scan_row_alignment_witness :
    (1 : ℕ) < 3 ∧
    (scan_rows (fun row => if row.getD 0 ("", 0) = ("k", 2) then none else some [1])
        [[("k", 1)], [("k", 2)], [("k", 3)]]).getD 1 ScanRow.nanRow = ScanRow.nanRow := by
  refine ⟨by decide, ?_⟩
  exact (scan_row_alignment
    (fun row => if row.getD 0 ("", 0) = ("k", 2) then none else some [1])
    [[("k", 1)], [("k", 2)], [("k", 3)]]).2 1 (by decide) |>.1 (by decide)

/-! ### Claim C8 -/

/-- C8: simulating a multi-segment protocol yields one continuous
trajectory: sampled times are strictly increasing (no duplicated sample at
a boundary), each boundary advances by exactly the segment's duration (no
gap), and the sample shared by segments i and i+1 carries the state
obtained by integrating segment i — with its overrides applied first — from
the state at the start of segment i, so the state at the end of segment i
is the state at the start of segment i+1. -/
theorem protocol_segment_continuity {S : Type} (solve : (String → ℚ) → ℚ → S → S)
    (p0 : String → ℚ) (s0 : S) (protocol : List (ℚ × List (String × ℚ)))
    (hd : ∀ seg ∈ protocol, 0 < seg.1) :
    List.Chain' (fun a b => a.1 < b.1) (simulateProtocol solve p0 s0 0 protocol) ∧
    ∀ i, i < protocol.length →
      ((simulateProtocol solve p0 s0 0 protocol).getD (i + 1) (0, s0)).1
          = ((simulateProtocol solve p0 s0 0 protocol).getD i (0, s0)).1
            + (protocol.getD i (0, [])).1 ∧
      ((simulateProtocol solve p0 s0 0 protocol).getD (i + 1) (0, s0)).2
          = solve (paramsAt p0 protocol i) (protocol.getD i (0, [])).1
              ((simulateProtocol solve p0 s0 0 protocol).getD i (0, s0)).2 := by
  refine ⟨simulateProtocol_times solve protocol p0 s0 0 hd, ?_⟩
  intro i hi
  exact simulateProtocol_step solve protocol p0 s0 0 i (0, s0) hi

/-- Witness for C8: the three-segment protocol of the documentation,
(1, k1 ↦ 1), (2, k1 ↦ 2), (3, k1 ↦ 1), with the integrator
s ↦ s + d·k1, has strictly positive durations and its second boundary
sample sits at time 1 + 2 with the state integrated over segment 1. -/
theorem protocol_segment_continuity_witness :
    (∀ seg ∈ [((1 : ℚ), [("k1", (1 : ℚ))]), (2, [("k1", 2)]), (3, [("k1", 1)])], 0 < seg.1) ∧
    ((simulateProtocol (fun p d s => s + d * p "k1") (fun _ => 0) (0 : ℚ) 0
        [((1 : ℚ), [("k1", (1 : ℚ))]), (2, [("k1", 2)]), (3, [("k1", 1)])]).getD 2 (0, 0)).1
      = ((simulateProtocol (fun p d s => s + d * p "k1") (fun _ => 0) (0 : ℚ) 0
        [((1 : ℚ), [("k1", (1 : ℚ))]), (2, [("k1", 2)]), (3, [("k1", 1)])]).getD 1 (0, 0)).1
        + 2 := by
  refine ⟨by decide, ?_⟩
  exact (protocol_segment_continuity (fun p d s => s + d * p "k1") (fun _ => 0) (0 : ℚ)
    [((1 : ℚ), [("k1", (1 : ℚ))]), (2, [("k1", 2)]), (3, [("k1", 1)])]
    (by decide)).2 1 (by decide) |>.1

/-! ### Claim C9 -/

/-- C9: every add operation of the model builder fails with a
DefinitionError at call time exactly when the given name already exists
anywhere in the namespace or a referenced argument or stoichiometry name
has not been previously declared; the checks happen inside the add call
itself, never at evaluation time. -/
theorem add_ops_definition_errors :
    (∀ (m : QModel) (ps : List (String × ℚ)),
      (∃ e, m.add_parameters ps = .error e)
        ↔ ¬ ((∀ p ∈ ps, p.1 ∉ m.names) ∧ (ps.map Prod.fst).Nodup)) ∧
    (∀ (m : QModel) (vs : List (String × ℚ)),
      (∃ e, m.add_variables vs = .error e)
        ↔ ¬ ((∀ p ∈ vs, p.1 ∉ m.names) ∧ (vs.map Prod.fst).Nodup)) ∧
    (∀ (m : QModel) (name : String) (args : List String),
      (∃ e, m.add_derived name args = .error e)
        ↔ name ∈ m.names ∨ ∃ a ∈ args, a ∉ m.names) ∧
    (∀ (m : QModel) (name : String) (args : List String) (st : List (String × ℚ)),
      (∃ e, m.add_reaction name args st = .error e)
        ↔ name ∈ m.names ∨ (∃ a ∈ args, a ∉ m.names)
          ∨ ∃ k ∈ st.map Prod.fst, k ∉ m.vars.map Prod.fst) :=
  ⟨fun m ps => add_parameters_error_iff ps m,
   fun m vs => add_variables_error_iff vs m,
   add_derived_error_iff,
   add_reaction_error_iff⟩

/-! ### Claim C10 -/

/-- C10: the simulator's result accessors return an optional value: None
exactly when the underlying simulation failed, and the corresponding table
otherwise; being total functions into Option, they never raise, and a
caller must unwrap the returned value before use. -/
theorem result_accessors_optional (s : SimState) :
    (s.get_concs = none ↔ s.result = none) ∧
    (s.get_full_concs = none ↔ s.result = none) ∧
    (s.get_concs_and_fluxes = none ↔ s.result = none) ∧
    (s.get_results = none ↔ s.result = none) ∧
    (∀ d, s.result = some d →
      s.get_concs = some d.concs ∧ s.get_full_concs = some d.fullConcs ∧
      s.get_concs_and_fluxes = some (d.concs, d.fluxes) ∧
      s.get_results = some (d.concs ++ d.fluxes)) := by
  cases hs : s.result with
  | none =>
    simp [SimState.get_concs, SimState.get_full_concs, SimState.get_concs_and_fluxes,
      SimState.get_results, hs]
  | some d =>
    simp [SimState.get_concs, SimState.get_full_concs, SimState.get_concs_and_fluxes,
      SimState.get_results, hs]

/-! ### Label models

The LabelMapper and LinearLabelMapper implementations are not among the
provided sources (only the documentation notebook calling them is), so the
label subsystem below is modelled from the specification: labeled variables
expand into bitmask-indexed isotopomer variants, reactions expand over the
Cartesian product of substrate variant bitmasks, the product bitmask is the
transition-map permutation of the concatenated substrate bitmask, and rates
are mass-action (a rate constant times the product of the substrate
concentrations), applied to the specific variant slice. -/

/-- Number of label positions of a variable: the declared count for a
labeled variable and 0 for a variable that is not listed. -/
def posOf : List (String × ℕ) → String → ℕ
  | [], _ => 0
  | (w, n) :: rest, v => if w = v then n else posOf rest v

/-- A variable with a positive declared position count is listed. -/
lemma posOf_mem (lv : List (String × ℕ)) (v : String) (h : posOf lv v ≠ 0) :
    (v, posOf lv v) ∈ lv := by
  induction lv with
  | nil => simp [posOf] at h
  | cons p rest ih =>
    obtain ⟨w, n⟩ := p
    by_cases hw : w = v
    · subst hw
      simp [posOf]
    · rw [posOf] at h ⊢
      simp only [hw, if_false] at h ⊢
      exact List.mem_cons_of_mem _ (ih h)

/-- With no duplicate labeled names, the declared count is looked up. -/
lemma posOf_eq_of_mem (lv : List (String × ℕ)) (v : String) (n : ℕ)
    (hnd : (lv.map Prod.fst).Nodup) (hm : (v, n) ∈ lv) : posOf lv v = n := by
  induction lv with
  | nil => simp at hm
  | cons p rest ih =>
    obtain ⟨w, m⟩ := p
    simp only [List.map_cons, List.nodup_cons, List.mem_map] at hnd
    rcases List.mem_cons.mp hm with h | h
    · have hv : w = v := (congrArg Prod.fst h).symm
      have hn : m = n := (congrArg Prod.snd h).symm
      rw [posOf]
      simp [hv, hn]
    · rw [posOf]
      by_cases hw : w = v
      · exact absurd ⟨(v, n), h, hw ▸ rfl⟩ hnd.1
      · simp only [hw, if_false]
        exact ih hnd.2 h

/-- All tuples of bitmasks, one entry per substrate, with entry i ranging
over `[0, Ns[i])`; the Cartesian product enumeration of the expansion. -/
def tuples : List ℕ → List (List ℕ)
  | [] => [[]]
  | N :: Ns => (List.range N).flatMap (fun b => (tuples Ns).map (fun bs => b :: bs))

/-- The number of tuples is the product of the ranges. -/
lemma tuples_length (Ns : List ℕ) : (tuples Ns).length = Ns.prod := by
  induction Ns with
  | nil => simp [tuples]
  | cons N Ns ih =>
    simp only [tuples, List.length_flatMap, List.length_map]
    induction N with
    | zero => simp
    | succ N ihn =>
      rw [List.range_succ]
      simp [ihn, ih, Nat.succ_mul]

/-- Members of `tuples Ns` have the length of `Ns` and in-range entries. -/
lemma mem_tuples (Ns : List ℕ) (bs : List ℕ) (h : bs ∈ tuples Ns) :
    bs.length = Ns.length ∧ ∀ i, bs.getD i 0 < Ns.getD i 1 := by
  induction Ns generalizing bs with
  | nil =>
    simp [tuples] at h
    subst h
    exact ⟨rfl, fun i => by simp⟩
  | cons N Ns ih =>
    simp only [tuples, List.mem_flatMap, List.mem_map, List.mem_range] at h
    obtain ⟨b, hb, bs', hbs', rfl⟩ := h
    obtain ⟨hlen, hall⟩ := ih bs' hbs'
    refine ⟨by simp [hlen], fun i => ?_⟩
    cases i with
    | zero => simpa using hb
    | succ i => simpa using hall i

/-- The natural number whose first n bits are given by f and whose higher
bits are clear. -/
def maskOfBits (f : ℕ → Bool) : ℕ → ℕ
  | 0 => 0
  | n + 1 => (if f 0 then 1 else 0) + 2 * maskOfBits (fun i => f (i + 1)) n

/-- A mask over n bit positions is below 2^n. -/
lemma maskOfBits_lt (f : ℕ → Bool) (n : ℕ) : maskOfBits f n < 2 ^ n := by
  induction n generalizing f with
  | zero => simp [maskOfBits]
  | succ n ih =>
    rw [maskOfBits]
    have h2 := ih (fun i => f (i + 1))
    rw [pow_succ]
    by_cases hf : f 0 <;> simp [hf] <;> omega

/-- Reading any bit of the constructed mask gives the defining function
inside the range and false outside. -/
lemma testBit_maskOfBits (f : ℕ → Bool) (n p : ℕ) :
    (maskOfBits f n).testBit p = if p < n then f p else false := by
  induction n generalizing f p with
  | zero => simp [maskOfBits, Nat.zero_testBit]
  | succ n ih =>
    rw [maskOfBits]
    cases p with
    | zero =>
      rw [Nat.testBit_zero]
      by_cases hf : f 0 <;> simp [hf] <;> omega
    | succ p =>
      rw [Nat.testBit_succ]
      have hdiv : ((if f 0 then 1 else 0) + 2 * maskOfBits (fun i => f (i + 1)) n) / 2
          = maskOfBits (fun i => f (i + 1)) n := by
        by_cases hf : f 0 <;> simp [hf] <;> omega
      rw [hdiv, ih]
      simp [Nat.succ_lt_succ_iff]

/-- Bit t of the concatenation of per-substrate bit vectors: substrate j
contributes positions `[ns[0]+…+ns[j-1], …)` of width `ns[j]`, read from its
bitmask `bs[j]`. -/
def concatBit : List ℕ → List ℕ → ℕ → Bool
  | [], _, _ => false
  | _, [], _ => false
  | n :: ns, b :: bs, t => if t < n then b.testBit t else concatBit ns bs (t - n)

/-- Locating a concatenated position: which list entry it falls into and
the offset within that entry. -/
def locate : List ℕ → ℕ → ℕ × ℕ
  | [], t => (0, t)
  | n :: ns, t =>
    if t < n then (0, t)
    else
      let p := locate ns (t - n)
      (p.1 + 1, p.2)

/-- A concatenated bit is the located bit of the located entry. -/
lemma concatBit_locate (ns bs : List ℕ) (t : ℕ) (hl : bs.length = ns.length) :
    concatBit ns bs t = (bs.getD (locate ns t).1 0).testBit (locate ns t).2 := by
  induction ns generalizing bs t with
  | nil =>
    cases bs with
    | nil => simp [concatBit, locate, Nat.zero_testBit]
    | cons b bs => simp at hl
  | cons n ns ih =>
    cases bs with
    | nil => simp at hl
    | cons b bs =>
      rw [concatBit, locate]
      by_cases ht : t < n
      · simp [ht]
      · simp only [ht, if_false]
        exact ih bs (t - n) (by simpa using hl)

/-- A located in-range position lands inside the list with an in-range
offset. -/
lemma locate_lt (ns : List ℕ) (t : ℕ) (ht : t < ns.sum) :
    (locate ns t).1 < ns.length ∧ (locate ns t).2 < ns.getD (locate ns t).1 0 := by
  induction ns generalizing t with
  | nil => simp at ht
  | cons n ns ih =>
    rw [locate]
    by_cases htn : t < n
    · simp [htn]
    · simp only [htn, if_false]
      have ht' : t - n < ns.sum := by
        simp only [List.sum_cons] at ht
        omega
      obtain ⟨h1, h2⟩ := ih (t - n) ht'
      exact ⟨by simpa using h1, by simpa using h2⟩

/-- The product bitmask of an expanded reaction: output position p carries
the label of concatenated substrate position `trans[p]`. -/
def productMask (trans : List ℕ) (ns bs : List ℕ) : ℕ :=
  maskOfBits (fun p => concatBit ns bs (trans.getD p 0)) trans.length

/-- The product bitmask is a valid mask over the output positions. -/
lemma productMask_lt (trans ns bs : List ℕ) :
    productMask trans ns bs < 2 ^ trans.length :=
  maskOfBits_lt _ _

/-- A reaction of the base model, as needed by the label expansion:
mass-action rate constant, ordered labeled substrates, the product, and the
transition map (one source index per output label position, indexing into
the concatenated substrate label vector, 0-based). -/
structure LReaction where
  k : ℚ
  substrates : List String
  product : String
  transition : List ℕ

/-- A base model together with its label specification: the labeled
variables with their position counts, the initial concentrations, and the
reactions with their transition maps. -/
structure LModel where
  label_variables : List (String × ℕ)
  init : String → ℚ
  reactions : List LReaction

/-- Position count of a variable in the model's label specification. -/
def LModel.pos (m : LModel) (v : String) : ℕ := posOf m.label_variables v

/-- Mass-action rate of a base reaction at base concentrations. -/
def baseRate (c : String → ℚ) (r : LReaction) : ℚ :=
  r.k * (r.substrates.map c).prod

/-- Net stoichiometric coefficient of a variable in a base reaction: +1 as
the product, −1 per substrate occurrence. -/
def coefBase (r : LReaction) (v : String) : ℚ :=
  (if r.product = v then 1 else 0)
    - ((r.substrates.map (fun s => if s = v then (1 : ℚ) else 0)).sum)

/-- Right-hand side of the base model: for each variable, the sum over
reactions of coefficient times rate. -/
def baseRhs (m : LModel) (c : String → ℚ) (v : String) : ℚ :=
  (m.reactions.map (fun r => coefBase r v * baseRate c r)).sum

/-- Modelled from the spec: the rate of one expanded reaction instance
keeps the original rate function and kinetic parameters but is applied to
the specific substrate variant concentrations chosen by the bitmask
tuple. -/
def exRate (σ : String → ℕ → ℚ) (r : LReaction) (bs : List ℕ) : ℚ :=
  r.k * (List.zipWith (fun s b => σ s b) r.substrates bs).prod

/-- Net stoichiometric coefficient of the variant (v, b) in the expanded
instance of reaction r chosen by the bitmask tuple bs: +1 when it is the
instance's product variant (the transition-permuted union of the substrate
bitmasks), −1 per substrate occurrence consuming exactly this variant. -/
def exCoef (m : LModel) (r : LReaction) (bs : List ℕ) (v : String) (b : ℕ) : ℚ :=
  (if r.product = v ∧ productMask r.transition (r.substrates.map m.pos) bs = b then 1 else 0)
    - ((List.range r.substrates.length).map (fun i =>
        if r.substrates.getD i "" = v ∧ bs.getD i 0 = b then (1 : ℚ) else 0)).sum

/-- The Cartesian product of substrate variant bitmasks of one reaction. -/
def tuplesOf (m : LModel) (r : LReaction) : List (List ℕ) :=
  tuples (r.substrates.map (fun s => 2 ^ m.pos s))

/-- Modelled from the spec: right-hand side of the LabelMapper-expanded
model.  Every reaction contributes one expanded instance per combination of
substrate variant bitmasks; converging instances contribute additively. -/
def exRhs (m : LModel) (σ : String → ℕ → ℚ) (v : String) (b : ℕ) : ℚ :=
  (m.reactions.map (fun r =>
    ((tuplesOf m r).map (fun bs => exCoef m r bs v b * exRate σ r bs)).sum)).sum

/-- Total concentration of a variable: the sum over all its variants. -/
def total (m : LModel) (σ : String → ℕ → ℚ) (v : String) : ℚ :=
  ((List.range (2 ^ m.pos v)).map (σ v)).sum

/-- Summing the variant-slice products over all bitmask tuples factorizes
into the product of the per-substrate totals. -/
lemma sum_tuples_rate (σ : String → ℕ → ℚ) (q : String → ℕ) (ss : List String) :
    ((tuples (ss.map (fun s => 2 ^ q s))).map
      (fun bs => (List.zipWith (fun s b => σ s b) ss bs).prod)).sum
    = (ss.map (fun s => ((List.range (2 ^ q s)).map (σ s)).sum)).prod := by
  induction ss with
  | nil => simp [tuples]
  | cons s ss ih =>
    simp only [List.map_cons, tuples]
    rw [sum_map_bind]
    have houter : ∀ b ∈ List.range (2 ^ q s),
        (((tuples (ss.map (fun t => 2 ^ q t))).map (fun bs => b :: bs)).map
            (fun bs => (List.zipWith (fun t c => σ t c) (s :: ss) bs).prod)).sum
          = σ s b * (ss.map (fun t => ((List.range (2 ^ q t)).map (σ t)).sum)).prod := by
      intro b _
      rw [List.map_map, ← ih, ← sum_map_mul_left']
      apply congrArg List.sum
      apply List.map_congr_left
      intro bs _
      simp
    rw [List.map_congr_left houter, sum_map_mul_right', List.prod_cons]

/-- Summing the variant-slice products weighted at one selected substrate
occurrence factorizes into the weighted total of that occurrence times the
plain totals of the remaining occurrences. -/
lemma sum_tuples_rate_select (σ : String → ℕ → ℚ) (q : String → ℕ) :
    ∀ (ss : List String) (j : ℕ), j < ss.length → ∀ w : ℕ → ℚ,
    ((tuples (ss.map (fun s => 2 ^ q s))).map
      (fun bs => (List.zipWith (fun s b => σ s b) ss bs).prod * w (bs.getD j 0))).sum
    = (((List.range (2 ^ q (ss.getD j ""))).map (fun b => σ (ss.getD j "") b * w b)).sum)
      * ((ss.eraseIdx j).map (fun s => ((List.range (2 ^ q s)).map (σ s)).sum)).prod := by
  intro ss
  induction ss with
  | nil => intro j hj w; simp at hj
  | cons s ss ih =>
    intro j hj w
    cases j with
    | zero =>
      simp only [List.map_cons, tuples, List.getD_cons_zero, List.eraseIdx_cons_zero]
      rw [sum_map_bind]
      have houter : ∀ b ∈ List.range (2 ^ q s),
          (((tuples (ss.map (fun t => 2 ^ q t))).map (fun bs => b :: bs)).map
              (fun bs => (List.zipWith (fun t c => σ t c) (s :: ss) bs).prod
                * w (bs.getD 0 0))).sum
            = (σ s b * w b)
              * (ss.map (fun t => ((List.range (2 ^ q t)).map (σ t)).sum)).prod := by
        intro b _
        rw [List.map_map, ← sum_tuples_rate σ q ss, ← sum_map_mul_left']
        apply congrArg List.sum
        apply List.map_congr_left
        intro bs _
        simp only [Function.comp_apply, List.zipWith_cons_cons, List.prod_cons,
          List.getD_cons_zero]
        ring
      rw [List.map_congr_left houter, sum_map_mul_right']
    | succ j =>
      have hj' : j < ss.length := by simpa using hj
      simp only [List.map_cons, tuples, List.getD_cons_succ, List.eraseIdx_cons_succ]
      rw [sum_map_bind]
      have houter : ∀ b ∈ List.range (2 ^ q s),
          (((tuples (ss.map (fun t => 2 ^ q t))).map (fun bs => b :: bs)).map
              (fun bs => (List.zipWith (fun t c => σ t c) (s :: ss) bs).prod
                * w (bs.getD (j + 1) 0))).sum
            = σ s b * ((((List.range (2 ^ q (ss.getD j ""))).map
                  (fun c => σ (ss.getD j "") c * w c)).sum)
                * ((ss.eraseIdx j).map
                  (fun t => ((List.range (2 ^ q t)).map (σ t)).sum)).prod) := by
        intro b _
        rw [List.map_map, ← ih j hj' w, ← sum_map_mul_left']
        apply congrArg List.sum
        apply List.map_congr_left
        intro bs _
        simp only [Function.comp_apply, List.zipWith_cons_cons, List.prod_cons,
          List.getD_cons_succ]
        ring
      rw [List.map_congr_left houter, sum_map_mul_right', List.prod_cons]
      ring

/-- Subtraction distributes over a mapped sum. -/
lemma sum_map_sub' {α : Type} (l : List α) (f g : α → ℚ) :
    (l.map (fun x => f x - g x)).sum = (l.map f).sum - (l.map g).sum := by
  induction l with
  | nil => simp
  | cons x xs ih => simp [ih]; ring

/-- A sum over indices of a list equals the mapped sum. -/
lemma sum_range_getD {α : Type} (l : List α) (d : α) (f : α → ℚ) :
    ((List.range l.length).map (fun i => f (l.getD i d))).sum = (l.map f).sum := by
  induction l with
  | nil => simp
  | cons x xs ih =>
    rw [List.length_cons, List.range_succ_eq_map]
    simp only [List.map_cons, List.map_map, Function.comp, List.getD_cons_zero,
      List.getD_cons_succ, List.sum_cons]
    rw [← ih]
    rfl

/-- Well-formed label specification: every reaction's transition map has
one entry per label position of its product. -/
def LModel.wf (m : LModel) : Prop :=
  ∀ r ∈ m.reactions, r.transition.length = m.pos r.product

/-- Summing the expanded coefficient of a variable over all its variant
bitmasks recovers the base stoichiometric coefficient. -/
lemma exCoef_sum (m : LModel) (r : LReaction) (hr : r.transition.length = m.pos r.product)
    (bs : List ℕ) (hbs : bs ∈ tuplesOf m r) (v : String) :
    ((List.range (2 ^ m.pos v)).map (fun b => exCoef m r bs v b)).sum = coefBase r v := by
  unfold exCoef coefBase
  rw [sum_map_sub']
  obtain ⟨hlen, hall⟩ := mem_tuples _ _ hbs
  congr 1
  · -- positive part: the product indicator
    by_cases hpv : r.product = v
    · have hmask : productMask r.transition (r.substrates.map m.pos) bs < 2 ^ m.pos v := by
        have := productMask_lt r.transition (r.substrates.map m.pos) bs
        rw [hr, hpv] at this
        exact this
      simp only [hpv, true_and]
      have hpt : ∀ b ∈ List.range (2 ^ m.pos v),
          (if productMask r.transition (r.substrates.map m.pos) bs = b then (1 : ℚ) else 0)
            = (if b = productMask r.transition (r.substrates.map m.pos) bs then (1 : ℚ) else 0) := by
        intro b _
        by_cases h : b = productMask r.transition (r.substrates.map m.pos) bs <;> simp [h, eq_comm]
      rw [List.map_congr_left hpt, sum_range_ite_eq _ _ hmask]
      simp [hpv]
    · simp [hpv]
  · -- negative part: per-occurrence consumption indicators
    rw [sum_map_comm]
    have hpt : ∀ i ∈ List.range r.substrates.length,
        ((List.range (2 ^ m.pos v)).map (fun b =>
          if r.substrates.getD i "" = v ∧ bs.getD i 0 = b then (1 : ℚ) else 0)).sum
          = (if r.substrates.getD i "" = v then (1 : ℚ) else 0) := by
      intro i hi
      rw [List.mem_range] at hi
      by_cases hsv : r.substrates.getD i "" = v
      · have hblt : bs.getD i 0 < 2 ^ m.pos v := by
          have := hall i
          rw [getD_map_lt (fun s => 2 ^ m.pos s) r.substrates i hi 1 ""] at this
          rw [hsv] at this
          exact this
        have hpt2 : ∀ b ∈ List.range (2 ^ m.pos v),
            (if r.substrates.getD i "" = v ∧ bs.getD i 0 = b then (1 : ℚ) else 0)
              = (if b = bs.getD i 0 then (1 : ℚ) else 0) := by
          intro b _
          by_cases h : b = bs.getD i 0
          · subst h
            rw [if_pos ⟨hsv, rfl⟩, if_pos rfl]
          · rw [if_neg (fun hc => h hc.2.symm), if_neg h]
        rw [List.map_congr_left hpt2,
          sum_range_ite_eq (2 ^ m.pos v) (bs.getD i 0) hblt (fun _ => (1 : ℚ)), if_pos hsv]
      · rw [if_neg hsv]
        apply List.sum_eq_zero
        intro x hx
        simp only [List.mem_map] at hx
        obtain ⟨b, _, rfl⟩ := hx
        rw [if_neg (fun hc => hsv hc.1)]
    rw [List.map_congr_left hpt]
    exact sum_range_getD r.substrates "" (fun s => if s = v then (1 : ℚ) else 0)

/-- Summing the expanded rate over all tuples gives the base mass-action
rate at the per-variable totals. -/
lemma sum_tuplesOf_exRate (m : LModel) (σ : String → ℕ → ℚ) (r : LReaction) :
    ((tuplesOf m r).map (exRate σ r)).sum = baseRate (total m σ) r := by
  unfold tuplesOf exRate baseRate
  rw [sum_map_mul_left', sum_tuples_rate σ m.pos r.substrates]
  unfold total
  rfl

/-- Conservation at the level of right-hand sides: for every variable, the
sum of the expanded derivatives over all its variants equals the base
derivative at the per-variable totals. -/
lemma exRhs_total (m : LModel) (σ : String → ℕ → ℚ) (hwf : m.wf) (v : String) :
    ((List.range (2 ^ m.pos v)).map (exRhs m σ v)).sum = baseRhs m (total m σ) v := by
  unfold exRhs baseRhs
  rw [sum_map_comm]
  apply congrArg List.sum
  apply List.map_congr_left
  intro r hrm
  rw [sum_map_comm]
  have hpt : ∀ bs ∈ tuplesOf m r,
      ((List.range (2 ^ m.pos v)).map (fun b => exCoef m r bs v b * exRate σ r bs)).sum
        = coefBase r v * exRate σ r bs := by
    intro bs hbs
    rw [sum_map_mul_right', exCoef_sum m r (hwf r hrm) bs hbs v]
  rw [List.map_congr_left hpt, sum_map_mul_left', sum_tuplesOf_exRate]

/-- Discrete (explicit Euler) trajectory of the expanded model, standing
for the integrator's simulated time points. -/
def eulerEx (m : LModel) (h : ℚ) (σ0 : String → ℕ → ℚ) : ℕ → String → ℕ → ℚ
  | 0 => σ0
  | t + 1 => fun v b => eulerEx m h σ0 t v b + h * exRhs m (eulerEx m h σ0 t) v b

/-- Discrete (explicit Euler) trajectory of the base model on the same time
grid. -/
def eulerBase (m : LModel) (h : ℚ) (c0 : String → ℚ) : ℕ → String → ℚ
  | 0 => c0
  | t + 1 => fun v => eulerBase m h c0 t v + h * baseRhs m (eulerBase m h c0 t) v

/-- Modelled from the spec: `initial_labels` designates, per variable, the
bitmask holding the base variable's full initial concentration; all other
variants start at zero. -/
def initialExpanded (m : LModel) (labels : String → ℕ) : String → ℕ → ℚ :=
  fun v b => if b = labels v then m.init v else 0

/-- The designated initial bitmask receives the whole initial
concentration, so the variant total starts at the base initial value. -/
lemma total_initialExpanded (m : LModel) (labels : String → ℕ)
    (hmask : ∀ v, labels v < 2 ^ m.pos v) (v : String) :
    total m (initialExpanded m labels) v = m.init v := by
  unfold total initialExpanded
  exact sum_range_ite_eq (2 ^ m.pos v) (labels v) (hmask v) (fun _ => m.init v)

/-- Mass conservation along the discrete trajectory: the variant totals of
the expanded model follow exactly the base model's trajectory started at
the same totals. -/
lemma euler_total (m : LModel) (h : ℚ) (σ0 : String → ℕ → ℚ) (c0 : String → ℚ)
    (hwf : m.wf) (h0 : ∀ v, total m σ0 v = c0 v) :
    ∀ t v, total m (eulerEx m h σ0 t) v = eulerBase m h c0 t v := by
  intro t
  induction t with
  | zero => exact h0
  | succ t ih =>
    have hfun : total m (eulerEx m h σ0 t) = eulerBase m h c0 t := funext ih
    intro v
    have hstep : total m (eulerEx m h σ0 (t + 1)) v
        = total m (eulerEx m h σ0 t) v
          + h * ((List.range (2 ^ m.pos v)).map (fun b => exRhs m (eulerEx m h σ0 t) v b)).sum := by
      unfold total
      rw [show eulerEx m h σ0 (t + 1) = fun v b =>
          eulerEx m h σ0 t v b + h * exRhs m (eulerEx m h σ0 t) v b from rfl]
      rw [List.sum_map_add, sum_map_mul_left']
    rw [hstep, exRhs_total m (eulerEx m h σ0 t) hwf v, hfun]
    rfl

/-! ### Claim C1 -/

/-- C1: in a LabelMapper-built model, for every variable labeled with n
positions, at every simulated time point the sum of the concentrations of
all 2^n isotopomer variants equals the concentration of the base variable
in the original model on the same time grid, and at time zero it equals the
base variable's initial concentration. -/
theorem label_mass_conservation (m : LModel) (h : ℚ) (labels : String → ℕ)
    (hwf : m.wf) (hnd : (m.label_variables.map Prod.fst).Nodup)
    (hmask : ∀ v, labels v < 2 ^ m.pos v) :
    (∀ t v n, (v, n) ∈ m.label_variables →
      ((List.range (2 ^ n)).map (eulerEx m h (initialExpanded m labels) t v)).sum
        = eulerBase m h m.init t v) ∧
    (∀ v n, (v, n) ∈ m.label_variables →
      ((List.range (2 ^ n)).map (initialExpanded m labels v)).sum = m.init v) := by
  have hcons := euler_total m h (initialExpanded m labels) m.init hwf
    (total_initialExpanded m labels hmask)
  constructor
  · intro t v n hm
    have hp : m.pos v = n := posOf_eq_of_mem m.label_variables v n hnd hm
    rw [← hp]
    exact hcons t v
  · intro v n hm
    have hp : m.pos v = n := posOf_eq_of_mem m.label_variables v n hnd hm
    rw [← hp]
    exact total_initialExpanded m labels hmask v

/-- Concrete two-variable label model: A and B with one label position
each, one reaction A → B carrying the label across (transition [0]). -/
def mC1 : LModel where
  label_variables := [("A", 1), ("B", 1)]
  init := fun v => if v = "A" then 1 else if v = "B" then 2 else 0
  reactions := [⟨1, ["A"], "B", [0]⟩]

/-- Initial labels for the concrete model: all of A's mass starts in the
labeled variant (bitmask 1). -/
def labC1 : String → ℕ := fun v => if v = "A" then 1 else 0

/-- The initial bitmask of every variable of the concrete model is in
range. -/
lemma labC1_mask : ∀ v, labC1 v < 2 ^ mC1.pos v := by
  intro v
  unfold labC1 mC1 LModel.pos posOf
  by_cases hA : v = "A"
  · simp [hA]
  · by_cases hB : v = "B"
    · simp [hA, hB]
    · have hA' : "A" ≠ v := fun hc => hA hc.symm
      have hB' : "B" ≠ v := fun hc => hB hc.symm
      simp [posOf, hA', hB', hA, hB]

/-- Witness for C1: on the concrete model, after three Euler steps the two
variants of B sum to the base model's concentration of B, discharging the
well-formedness, no-duplicate and initial-mask hypotheses at this input. -/
theorem label_mass_conservation_witness :
    ((mC1.label_variables.map Prod.fst).Nodup) ∧
    ((List.range (2 ^ 1)).map (eulerEx mC1 (1/2) (initialExpanded mC1 labC1) 3 "B")).sum
      = eulerBase mC1 (1/2) mC1.init 3 "B" := by
  refine ⟨by decide, ?_⟩
  exact (label_mass_conservation mC1 (1/2) labC1
    (by unfold LModel.wf; decide) (by decide) labC1_mask).1 3 "B" 1 (by decide)

/-- An index below the length reads a member of the list. -/
lemma getD_mem_of_lt {α : Type} (l : List α) (i : ℕ) (h : i < l.length) (d : α) :
    l.getD i d ∈ l := by
  induction l generalizing i with
  | nil => simp at h
  | cons x xs ih =>
    cases i with
    | zero => simp
    | succ i =>
      simp only [List.getD_cons_succ]
      exact List.mem_cons_of_mem _ (ih i (by simpa using h))

/-- Summing a mapped function over a filtered list equals summing the
indicator-guarded function over the whole list. -/
lemma sum_filter_ite {α : Type} (p : α → Bool) (l : List α) (f : α → ℚ) :
    ((l.filter p).map f).sum = (l.map (fun x => if p x then f x else 0)).sum := by
  induction l with
  | nil => simp
  | cons x xs ih =>
    by_cases h : p x <;> simp [h, ih]

/-! ### Claim C3 -/

/-- C3: when distinct substrate-bitmask combinations of a reaction map to
the same product bitmask, the expanded model's derivative of that product
variant is the sum of the rates of all converging expanded instances (none
is overwritten), and consequently summing over all variants of any variable
recovers the base right-hand side, conserving total mass flow. -/
theorem converging_rates_summed (m : LModel) (r : LReaction) (σ : String → ℕ → ℚ)
    (hm : m.reactions = [r]) (hnp : r.product ∉ r.substrates) (hwf : m.wf) (b : ℕ) :
    (exRhs m σ r.product b
      = (((tuplesOf m r).filter
          (fun bs => productMask r.transition (r.substrates.map m.pos) bs == b)).map
          (exRate σ r)).sum) ∧
    (∀ v, ((List.range (2 ^ m.pos v)).map (fun c => exRhs m σ v c)).sum
        = baseRhs m (total m σ) v) := by
  constructor
  · rw [exRhs, hm]
    simp only [List.map_cons, List.map_nil, List.sum_cons, List.sum_nil, add_zero]
    rw [sum_filter_ite]
    apply congrArg List.sum
    apply List.map_congr_left
    intro bs hbs
    rw [exCoef]
    have hneg : ((List.range r.substrates.length).map (fun i =>
        if r.substrates.getD i "" = r.product ∧ bs.getD i 0 = b then (1 : ℚ) else 0)).sum
          = 0 := by
      apply List.sum_eq_zero
      intro x hx
      simp only [List.mem_map, List.mem_range] at hx
      obtain ⟨i, hi, rfl⟩ := hx
      have hmem : r.substrates.getD i "" ∈ r.substrates := getD_mem_of_lt r.substrates i hi ""
      rw [if_neg (fun (hc : r.substrates.getD i "" = r.product ∧ bs.getD i 0 = b) =>
        hnp (hc.1 ▸ hmem))]
    rw [hneg, sub_zero]
    by_cases hmask : productMask r.transition (r.substrates.map m.pos) bs = b
    · simp [hmask]
    · simp [hmask]
  · exact exRhs_total m σ hwf

/-- Concrete converging model: substrate A with two label positions,
product B with one position sourced from A's position 0, so A-masks 0 and 2
(and likewise 1 and 3) converge onto the same B-variant. -/
def mC3 : LModel where
  label_variables := [("A", 2), ("B", 1)]
  init := fun _ => 1
  reactions := [⟨1, ["A"], "B", [0]⟩]

/-- Concrete expanded state used in the C3 witness. -/
def σC3 : String → ℕ → ℚ := fun v b => if v = "A" then (b : ℚ) + 1 else 0

/-- Witness for C3: on the concrete converging model, the derivative of the
unlabeled B-variant is the sum of the rates of the two converging
A-variants (masks 0 and 2), discharging the single-reaction, no-self-loop
and well-formedness hypotheses at this input. -/
theorem converging_rates_summed_witness :
    ("B" ∉ ["A"]) ∧
    exRhs mC3 σC3 "B" 0
      = (((tuplesOf mC3 ⟨1, ["A"], "B", [0]⟩).filter
          (fun bs => productMask [0] (["A"].map mC3.pos) bs == 0)).map
          (exRate σC3 ⟨1, ["A"], "B", [0]⟩)).sum := by
  refine ⟨by decide, ?_⟩
  exact (converging_rates_summed mC3 ⟨1, ["A"], "B", [0]⟩ σC3 rfl (by decide)
    (by unfold LModel.wf; decide) 0).1

/-! ### Claim C4 -/

/-- A reaction as declared to the LabelMapper: it may or may not carry a
transition map. -/
structure BReaction where
  name : String
  substrates : List String
  transitionMap : Option (List ℕ)

/-- One entry of the expanded reaction list: either a reaction passed
through unexpanded or one expanded instance per substrate bitmask tuple. -/
inductive ExInstance where
  | unexpanded : String → ExInstance
  | expanded : String → List ℕ → ExInstance
deriving DecidableEq

/-- Modelled from the spec: a reaction with a declared transition map and
at least one labeled substrate expands into one instance per combination of
substrate variant bitmasks (the Cartesian product); a reaction without a
transition map, or whose substrates carry no labeled positions, passes
through as a single unexpanded reaction. -/
def expand_reaction (lv : List (String × ℕ)) (r : BReaction) : List ExInstance :=
  match r.transitionMap with
  | none => [ExInstance.unexpanded r.name]
  | some _ =>
    if r.substrates.all (fun s => posOf lv s == 0) then [ExInstance.unexpanded r.name]
    else (tuples (r.substrates.map (fun s => 2 ^ posOf lv s))).map
      (fun bs => ExInstance.expanded r.name bs)

/-- C4: the number of expanded instances of a reaction with a transition
map and a labeled substrate equals the product of its substrates' variant
counts; a reaction without a transition map, or with no labeled substrate,
passes through as a single unexpanded reaction. -/
theorem expansion_count (lv : List (String × ℕ)) (r : BReaction) :
    ((r.transitionMap ≠ none) → (∃ s ∈ r.substrates, posOf lv s ≠ 0) →
      (expand_reaction lv r).length
        = (r.substrates.map (fun s => 2 ^ posOf lv s)).prod) ∧
    ((r.transitionMap = none ∨ ∀ s ∈ r.substrates, posOf lv s = 0) →
      expand_reaction lv r = [ExInstance.unexpanded r.name]) := by
  constructor
  · intro htm hlab
    unfold expand_reaction
    cases htrans : r.transitionMap with
    | none => exact absurd htrans htm
    | some t =>
      have hall : ¬ (r.substrates.all (fun s => posOf lv s == 0) = true) := by
        rw [List.all_eq_true]
        push_neg
        obtain ⟨s, hs, hns⟩ := hlab
        exact ⟨s, hs, by simpa using hns⟩
      rw [if_neg hall, List.length_map, tuples_length]
  · intro hpass
    unfold expand_reaction
    rcases hpass with htm | hall
    · rw [htm]
    · cases htrans : r.transitionMap with
      | none => rfl
      | some t =>
        have : r.substrates.all (fun s => posOf lv s == 0) = true := by
          rw [List.all_eq_true]
          intro s hs
          simpa using hall s hs
        simp only [this, if_true]

/-- Witness for C4: a reaction of a doubly-labeled substrate A and an
unlabeled substrate C with a transition map expands into 4 × 1 = 4
instances, and the same reaction without a transition map passes through
unexpanded, discharging the hypotheses at these inputs. -/
theorem expansion_count_witness :
    (expand_reaction [("A", 2)] ⟨"r1", ["A", "C"], some [0]⟩).length
        = ((["A", "C"].map (fun s => 2 ^ posOf [("A", 2)] s)).prod) ∧
    expand_reaction [("A", 2)] ⟨"r2", ["A", "C"], none⟩
        = [ExInstance.unexpanded "r2"] := by
  constructor
  · exact (expansion_count [("A", 2)] ⟨"r1", ["A", "C"], some [0]⟩).1
      (by decide) ⟨"A", by decide, by decide⟩
  · exact (expansion_count [("A", 2)] ⟨"r2", ["A", "C"], none⟩).2 (Or.inl rfl)

/-! ### Claim C2 -/

/-- A variable of the expanded model: an unlabeled variable passed through
with its initial value, or one bitmask-indexed isotopomer variant of a
labeled variable. -/
inductive LVar where
  | base : String → ℚ → LVar
  | variant : String → ℕ → LVar
deriving DecidableEq

/-- Modelled from the spec: `LabelMapper.build_model` generates, for each
variable labeled with n positions, exactly the variants of bitmasks
`[0, 2^n)`, and passes unlabeled variables through unchanged. -/
def build_variables (vars : List (String × ℚ)) (lv : List (String × ℕ)) : List LVar :=
  vars.flatMap (fun vq =>
    if posOf lv vq.1 = 0 then [LVar.base vq.1 vq.2]
    else (List.range (2 ^ posOf lv vq.1)).map (fun b => LVar.variant vq.1 b))

/-- The variant entries of one variable in an expanded variable list. -/
def variantsOf (out : List LVar) (v : String) : List LVar :=
  out.filter (fun x => match x with
    | LVar.variant w _ => w == v
    | _ => false)

/-- The pass-through entries of one variable in an expanded variable
list. -/
def basesOf (out : List LVar) (v : String) : List LVar :=
  out.filter (fun x => match x with
    | LVar.base w _ => w == v
    | _ => false)

/-- Variant filtering distributes over appending. -/
lemma variantsOf_append (l1 l2 : List LVar) (v : String) :
    variantsOf (l1 ++ l2) v = variantsOf l1 v ++ variantsOf l2 v :=
  List.filter_append l1 l2

/-- Pass-through filtering distributes over appending. -/
lemma basesOf_append (l1 l2 : List LVar) (v : String) :
    basesOf (l1 ++ l2) v = basesOf l1 v ++ basesOf l2 v :=
  List.filter_append l1 l2

/-- The block generated for one variable entry. -/
def varBlock (lv : List (String × ℕ)) (w : String) (val : ℚ) : List LVar :=
  if posOf lv w = 0 then [LVar.base w val]
  else (List.range (2 ^ posOf lv w)).map (fun b => LVar.variant w b)

/-- Building is the concatenation of per-variable blocks. -/
lemma build_variables_cons (w : String) (val : ℚ) (rest : List (String × ℚ))
    (lv : List (String × ℕ)) :
    build_variables ((w, val) :: rest) lv = varBlock lv w val ++ build_variables rest lv := by
  simp [build_variables, varBlock, List.flatMap_cons]

/-- A block of a different variable holds none of v's variants. -/
lemma variantsOf_block_other (lv : List (String × ℕ)) (w : String) (val : ℚ)
    (v : String) (hw : w ≠ v) : variantsOf (varBlock lv w val) v = [] := by
  unfold varBlock variantsOf
  by_cases h : posOf lv w = 0
  · simp [h]
  · simp only [h, if_false]
    rw [List.filter_map]
    simp [Function.comp, hw]

/-- A block of a different variable holds none of v's pass-through
entries. -/
lemma basesOf_block_other (lv : List (String × ℕ)) (w : String) (val : ℚ)
    (v : String) (hw : w ≠ v) : basesOf (varBlock lv w val) v = [] := by
  unfold varBlock basesOf
  by_cases h : posOf lv w = 0
  · simp [h, hw]
  · simp only [h, if_false]
    rw [List.filter_map]
    simp [Function.comp]

/-- No variant of an unlisted variable is generated. -/
lemma variantsOf_build_not_mem (vars : List (String × ℚ)) (lv : List (String × ℕ))
    (v : String) (hnm : v ∉ vars.map Prod.fst) :
    variantsOf (build_variables vars lv) v = [] := by
  induction vars with
  | nil => simp [build_variables, variantsOf]
  | cons p rest ih =>
    obtain ⟨w, val⟩ := p
    simp only [List.map_cons, List.mem_cons] at hnm
    push_neg at hnm
    rw [build_variables_cons, variantsOf_append,
      variantsOf_block_other lv w val v (fun hc => hnm.1 hc.symm), ih hnm.2]
    rfl

/-- No pass-through entry of an unlisted variable is generated. -/
lemma basesOf_build_not_mem (vars : List (String × ℚ)) (lv : List (String × ℕ))
    (v : String) (hnm : v ∉ vars.map Prod.fst) :
    basesOf (build_variables vars lv) v = [] := by
  induction vars with
  | nil => simp [build_variables, basesOf]
  | cons p rest ih =>
    obtain ⟨w, val⟩ := p
    simp only [List.map_cons, List.mem_cons] at hnm
    push_neg at hnm
    rw [build_variables_cons, basesOf_append,
      basesOf_block_other lv w val v (fun hc => hnm.1 hc.symm), ih hnm.2]
    rfl

/-- C2: for every variable labeled with n positions, the expanded variable
list holds exactly 2^n variants of it, one per bitmask in `[0, 2^n)` in
order; a variable not listed in the label specification passes through
unchanged as its single base entry. -/
theorem variant_generation (vars : List (String × ℚ)) (lv : List (String × ℕ))
    (hnd : (vars.map Prod.fst).Nodup) :
    (∀ v val n, (v, val) ∈ vars → posOf lv v = n → 0 < n →
      variantsOf (build_variables vars lv) v
        = (List.range (2 ^ n)).map (fun b => LVar.variant v b)) ∧
    (∀ v val, (v, val) ∈ vars → posOf lv v = 0 →
      basesOf (build_variables vars lv) v = [LVar.base v val]) := by
  induction vars with
  | nil => exact ⟨fun v val n hm => by simp at hm, fun v val hm => by simp at hm⟩
  | cons p rest ih =>
    obtain ⟨w, val'⟩ := p
    simp only [List.map_cons, List.nodup_cons, List.mem_map] at hnd
    obtain ⟨hwm, hnd'⟩ := hnd
    have hrec := ih hnd'
    constructor
    · intro v val n hm hpos hn
      rw [build_variables_cons, variantsOf_append]
      rcases List.mem_cons.mp hm with h | h
      · have hv : w = v := (congrArg Prod.fst h).symm
        subst hv
        have hnm : w ∉ rest.map Prod.fst := fun hc => by
          obtain ⟨q, hq, hqe⟩ := List.mem_map.mp hc
          exact hwm ⟨q, hq, hqe⟩
        rw [variantsOf_build_not_mem rest lv w hnm]
        unfold varBlock variantsOf
        have h0 : posOf lv w ≠ 0 := by omega
        simp only [h0, if_false]
        rw [List.filter_map]
        rw [hpos, List.append_nil]
        congr 1
        apply List.filter_eq_self.mpr
        intro b _
        simp [Function.comp]
      · have hv : w ≠ v := fun hc => by
          apply hwm
          exact ⟨(v, val), h, hc ▸ rfl⟩
        rw [variantsOf_block_other lv w val' v hv, hrec.1 v val n h hpos hn]
        rfl
    · intro v val hm hpos
      rw [build_variables_cons, basesOf_append]
      rcases List.mem_cons.mp hm with h | h
      · have hv : w = v := (congrArg Prod.fst h).symm
        have hval : val' = val := (congrArg Prod.snd h).symm
        subst hv
        subst hval
        have hnm : w ∉ rest.map Prod.fst := fun hc => by
          obtain ⟨q, hq, hqe⟩ := List.mem_map.mp hc
          exact hwm ⟨q, hq, hqe⟩
        rw [basesOf_build_not_mem rest lv w hnm]
        unfold varBlock basesOf
        simp [hpos]
      · have hv : w ≠ v := fun hc => by
          apply hwm
          exact ⟨(v, val), h, hc ▸ rfl⟩
        rw [basesOf_block_other lv w val' v hv, hrec.2 v val h hpos]
        rfl

/-- Witness for C2: in a two-variable model where A carries two label
positions and C is unlabeled, the build generates exactly the four
A-variants of bitmasks 0..3 and passes C through, discharging the
no-duplicate hypothesis at this input. -/
theorem variant_generation_witness :
    (([("A", (5 : ℚ)), ("C", 7)].map Prod.fst).Nodup) ∧
    variantsOf (build_variables [("A", (5 : ℚ)), ("C", 7)] [("A", 2)]) "A"
      = (List.range 4).map (fun b => LVar.variant "A" b) ∧
    basesOf (build_variables [("A", (5 : ℚ)), ("C", 7)] [("A", 2)]) "C"
      = [LVar.base "C" 7] := by
  refine ⟨by decide, ?_, ?_⟩
  · exact (variant_generation [("A", (5 : ℚ)), ("C", 7)] [("A", 2)] (by decide)).1
      "A" 5 2 (by decide) (by decide) (by decide)
  · exact (variant_generation [("A", (5 : ℚ)), ("C", 7)] [("A", 2)] (by decide)).2
      "C" 7 (by decide) (by decide)

/-! ### Claim C5: linear label mapper -/

/-- Flux of a reaction at fixed (steady-state) concentrations. -/
def flux (c : String → ℚ) (r : LReaction) : ℚ := r.k * (r.substrates.map c).prod

/-- The substrate variable and local position feeding output position p of
a reaction, per its transition map. -/
def srcOf (lv : List (String × ℕ)) (r : LReaction) (p : ℕ) : String × ℕ :=
  ((r.substrates.getD (locate (r.substrates.map (posOf lv)) (r.transition.getD p 0)).1 ""),
    (locate (r.substrates.map (posOf lv)) (r.transition.getD p 0)).2)

/-- Modelled from the spec: the LinearLabelMapper's right-hand side.  Per
labeled variable there is one ODE per label position; the label fraction of
position p evolves as the flux-weighted mixture of the fractions at the
source positions feeding it (per the transition map), relative to the
incoming fluxes, scaled by the fixed steady concentration, under the
stationarity assumption. -/
def linRhs (m : LModel) (c : String → ℚ) (y : String → ℕ → ℚ) (v : String) (p : ℕ) : ℚ :=
  ((m.reactions.map (fun r =>
    if r.product = v then
      flux c r * (y (srcOf m.label_variables r p).1 (srcOf m.label_variables r p).2 - y v p)
    else 0)).sum) / c v

/-- Discrete (explicit Euler) trajectory of the linear label model. -/
def eulerLin (m : LModel) (c : String → ℚ) (h : ℚ) (y0 : String → ℕ → ℚ) :
    ℕ → String → ℕ → ℚ
  | 0 => y0
  | t + 1 => fun v p => eulerLin m c h y0 t v p + h * linRhs m c (eulerLin m c h y0 t) v p

/-- Amount of label sitting at position p of a variable: the sum of the
variants whose bitmask has bit p set. -/
def marg (m : LModel) (σ : String → ℕ → ℚ) (v : String) (p : ℕ) : ℚ :=
  ((List.range (2 ^ m.pos v)).map (fun b => if b.testBit p then σ v b else 0)).sum

/-- Transition-map entries index into the concatenated substrate label
vector. -/
def LModel.wfT (m : LModel) : Prop :=
  ∀ r ∈ m.reactions, ∀ t ∈ r.transition, t < (r.substrates.map m.pos).sum

/-- Removing one element splits a mapped product. -/
lemma map_prod_eraseIdx {α : Type} (f : α → ℚ) :
    ∀ (l : List α) (j : ℕ), j < l.length → ∀ d : α,
      (l.map f).prod = f (l.getD j d) * ((l.eraseIdx j).map f).prod := by
  intro l
  induction l with
  | nil => intro j hj d; simp at hj
  | cons x xs ih =>
    intro j hj d
    cases j with
    | zero => simp
    | succ j =>
      have hj' : j < xs.length := by simpa using hj
      simp only [List.getD_cons_succ, List.eraseIdx_cons_succ, List.map_cons, List.prod_cons]
      rw [ih j hj' d]
      ring

/-- Summing a weighted pair-indicator over a range picks out the weighted
target when the guard holds. -/
lemma sum_range_ind_eq (M m0 : ℕ) (hm : m0 < M) (g : ℕ → ℚ) (A : Prop) [Decidable A] :
    ((List.range M).map (fun b => g b * (if A ∧ m0 = b then (1 : ℚ) else 0))).sum
      = if A then g m0 else 0 := by
  by_cases hA : A
  · simp only [hA, if_true, true_and]
    have hpt : ∀ b ∈ List.range M,
        g b * (if m0 = b then (1 : ℚ) else 0) = if b = m0 then g b else 0 := by
      intro b _
      by_cases h : b = m0
      · subst h; simp
      · rw [if_neg (fun hc => h hc.symm), if_neg h, mul_zero]
    rw [List.map_congr_left hpt, sum_range_ite_eq M m0 hm g]
  · simp [hA]

/-- Selecting one substrate occurrence with a bit-indicator weight over all
tuples yields that occurrence's label marginal times the fixed
concentrations of the other occurrences, given conservation of totals. -/
lemma sum_tuples_margsel (m : LModel) (σ : String → ℕ → ℚ) (c : String → ℚ)
    (hcons : ∀ s, total m σ s = c s) (ss : List String) (j : ℕ) (hj : j < ss.length)
    (q : ℕ) :
    ((tuples (ss.map (fun s => 2 ^ m.pos s))).map
      (fun bs => (List.zipWith (fun s b => σ s b) ss bs).prod
        * (if (bs.getD j 0).testBit q then (1 : ℚ) else 0))).sum
    = marg m σ (ss.getD j "") q * ((ss.eraseIdx j).map c).prod := by
  rw [sum_tuples_rate_select σ m.pos ss j hj (fun b => if b.testBit q then (1 : ℚ) else 0)]
  congr 1
  · unfold marg
    apply congrArg List.sum
    apply List.map_congr_left
    intro b _
    by_cases h : b.testBit q <;> simp [h]
  · apply congrArg List.prod
    apply List.map_congr_left
    intro s _
    exact hcons s

/-- Summing a weighted pair-indicator over a range picks out the weighted
target when the guard holds; the target need only be in range when the
guard holds. -/
lemma sum_range_ind_eq' (M m0 : ℕ) (g : ℕ → ℚ) (A : Prop) [Decidable A]
    (hm : A → m0 < M) :
    ((List.range M).map (fun b => g b * (if A ∧ m0 = b then (1 : ℚ) else 0))).sum
      = if A then g m0 else 0 := by
  by_cases hA : A
  · rw [sum_range_ind_eq M m0 (hm hA) g A]
  · simp [hA]

/-- Weighting the expanded coefficient with a bit indicator and summing
over the variants of a variable leaves the product indicator at the mask's
bit minus one indicator per consuming substrate occurrence. -/
lemma exCoef_ind_sum (m : LModel) (r : LReaction)
    (htl : r.transition.length = m.pos r.product) (bs : List ℕ)
    (hbs : bs ∈ tuplesOf m r) (v : String) (p : ℕ) :
    ((List.range (2 ^ m.pos v)).map (fun b =>
        exCoef m r bs v b * (if b.testBit p then (1 : ℚ) else 0))).sum
    = (if r.product = v then
        (if (productMask r.transition (r.substrates.map m.pos) bs).testBit p
          then (1 : ℚ) else 0)
      else 0)
      - ((List.range r.substrates.length).map (fun i =>
          if r.substrates.getD i "" = v then
            (if (bs.getD i 0).testBit p then (1 : ℚ) else 0) else 0)).sum := by
  obtain ⟨hlen, hall⟩ := mem_tuples _ _ hbs
  unfold exCoef
  have hsplit : ∀ b ∈ List.range (2 ^ m.pos v),
      ((if r.product = v ∧ productMask r.transition (r.substrates.map m.pos) bs = b
          then (1 : ℚ) else 0)
        - ((List.range r.substrates.length).map (fun i =>
            if r.substrates.getD i "" = v ∧ bs.getD i 0 = b then (1 : ℚ) else 0)).sum)
        * (if b.testBit p then (1 : ℚ) else 0)
      = (if b.testBit p then (1 : ℚ) else 0)
          * (if r.product = v ∧ productMask r.transition (r.substrates.map m.pos) bs = b
            then (1 : ℚ) else 0)
        - ((List.range r.substrates.length).map (fun i =>
            (if b.testBit p then (1 : ℚ) else 0)
              * (if r.substrates.getD i "" = v ∧ bs.getD i 0 = b then (1 : ℚ) else 0))).sum := by
    intro b _
    rw [sub_mul, ← sum_map_mul_right']
    congr 1
    · ring
    · apply congrArg List.sum
      apply List.map_congr_left
      intro i _
      ring
  rw [List.map_congr_left hsplit, sum_map_sub']
  congr 1
  · have hmask : r.product = v →
        productMask r.transition (r.substrates.map m.pos) bs < 2 ^ m.pos v := by
      intro hpv
      have := productMask_lt r.transition (r.substrates.map m.pos) bs
      rw [htl, hpv] at this
      exact this
    exact sum_range_ind_eq' (2 ^ m.pos v) _ (fun b => if b.testBit p then (1 : ℚ) else 0)
      (r.product = v) hmask
  · rw [sum_map_comm]
    apply congrArg List.sum
    apply List.map_congr_left
    intro i hi
    rw [List.mem_range] at hi
    have hblt : r.substrates.getD i "" = v → bs.getD i 0 < 2 ^ m.pos v := by
      intro hsv
      have := hall i
      rw [getD_map_lt (fun s => 2 ^ m.pos s) r.substrates i hi 1 ""] at this
      rw [hsv] at this
      exact this
    exact sum_range_ind_eq' (2 ^ m.pos v) _ (fun b => if b.testBit p then (1 : ℚ) else 0)
      (r.substrates.getD i "" = v) hblt

/-- The source selector written through the model's position function. -/
lemma srcOf_pos (m : LModel) (r : LReaction) (p : ℕ) :
    srcOf m.label_variables r p
      = ((r.substrates.getD (locate (r.substrates.map m.pos) (r.transition.getD p 0)).1 ""),
        (locate (r.substrates.map m.pos) (r.transition.getD p 0)).2) := rfl

/-- Marginal label flow of one reaction: weighting its expanded
contributions by a product-position bit and summing over the variants gives
the incoming flux times the source position's label fraction minus the
outgoing flux times the variable's own label fraction. -/
lemma reaction_marg (m : LModel) (σ : String → ℕ → ℚ) (c : String → ℚ)
    (hcons : ∀ s, total m σ s = c s) (hc : ∀ s, c s ≠ 0)
    (r : LReaction) (htl : r.transition.length = m.pos r.product)
    (htr : ∀ t ∈ r.transition, t < (r.substrates.map m.pos).sum)
    (v : String) (p : ℕ) (hp : p < m.pos v) :
    ((List.range (2 ^ m.pos v)).map (fun b => if b.testBit p then
        ((tuplesOf m r).map (fun bs => exCoef m r bs v b * exRate σ r bs)).sum else 0)).sum
    = (if r.product = v then
        flux c r * (marg m σ (srcOf m.label_variables r p).1 (srcOf m.label_variables r p).2
          / c (srcOf m.label_variables r p).1)
      else 0)
      - ((r.substrates.map (fun s => if s = v then (1 : ℚ) else 0)).sum)
        * (flux c r * (marg m σ v p / c v)) := by
  have hpt1 : ∀ b ∈ List.range (2 ^ m.pos v),
      (if b.testBit p then
        ((tuplesOf m r).map (fun bs => exCoef m r bs v b * exRate σ r bs)).sum else 0)
      = ((tuplesOf m r).map (fun bs => exCoef m r bs v b * exRate σ r bs
          * (if b.testBit p then (1 : ℚ) else 0))).sum := by
    intro b _
    by_cases h : b.testBit p
    · simp [h]
    · simp [h]
  rw [List.map_congr_left hpt1, sum_map_comm]
  have hpt2 : ∀ bs ∈ tuplesOf m r,
      ((List.range (2 ^ m.pos v)).map (fun b => exCoef m r bs v b * exRate σ r bs
          * (if b.testBit p then (1 : ℚ) else 0))).sum
      = ((if r.product = v then
            (if (productMask r.transition (r.substrates.map m.pos) bs).testBit p
              then (1 : ℚ) else 0)
          else 0) * exRate σ r bs)
        - (((List.range r.substrates.length).map (fun i =>
              if r.substrates.getD i "" = v then
                (if (bs.getD i 0).testBit p then (1 : ℚ) else 0) else 0)).sum
            * exRate σ r bs) := by
    intro bs hbs
    rw [← sub_mul, ← exCoef_ind_sum m r htl bs hbs v p, ← sum_map_mul_right']
    apply congrArg List.sum
    apply List.map_congr_left
    intro b _
    ring
  rw [List.map_congr_left hpt2, sum_map_sub']
  congr 1
  · -- incoming part
    by_cases hpv : r.product = v
    · simp only [hpv, if_true]
      have hplen : p < r.transition.length := by rw [htl, hpv]; exact hp
      have htlt : r.transition.getD p 0 < (r.substrates.map m.pos).sum :=
        htr (r.transition.getD p 0) (getD_mem_of_lt r.transition p hplen 0)
      obtain ⟨hjlt, hqlt⟩ := locate_lt (r.substrates.map m.pos) (r.transition.getD p 0) htlt
      rw [List.length_map] at hjlt
      have hptm : ∀ bs ∈ tuplesOf m r,
          (if (productMask r.transition (r.substrates.map m.pos) bs).testBit p
            then (1 : ℚ) else 0) * exRate σ r bs
          = r.k * ((List.zipWith (fun s b => σ s b) r.substrates bs).prod
              * (if (bs.getD (locate (r.substrates.map m.pos)
                  (r.transition.getD p 0)).1 0).testBit
                  (locate (r.substrates.map m.pos) (r.transition.getD p 0)).2
                then (1 : ℚ) else 0)) := by
        intro bs hbs
        obtain ⟨hblen, _⟩ := mem_tuples _ _ hbs
        have hblen2 : bs.length = (r.substrates.map m.pos).length := by
          rw [hblen]
          simp
        rw [productMask, testBit_maskOfBits, if_pos hplen,
          concatBit_locate (r.substrates.map m.pos) bs (r.transition.getD p 0) hblen2]
        unfold exRate
        ring
      rw [List.map_congr_left hptm, sum_map_mul_left']
      rw [show (fun bs => (List.zipWith (fun s b => σ s b) r.substrates bs).prod
          * (if (bs.getD (locate (r.substrates.map m.pos)
              (r.transition.getD p 0)).1 0).testBit
              (locate (r.substrates.map m.pos) (r.transition.getD p 0)).2
            then (1 : ℚ) else 0)) = fun bs =>
          (List.zipWith (fun s b => σ s b) r.substrates bs).prod
            * (if (bs.getD (locate (r.substrates.map m.pos)
                (r.transition.getD p 0)).1 0).testBit
                (locate (r.substrates.map m.pos) (r.transition.getD p 0)).2
              then (1 : ℚ) else 0) from rfl]
      rw [tuplesOf] at *
      rw [sum_tuples_margsel m σ c hcons r.substrates
        (locate (r.substrates.map m.pos) (r.transition.getD p 0)).1 hjlt
        (locate (r.substrates.map m.pos) (r.transition.getD p 0)).2]
      rw [srcOf_pos]
      unfold flux
      rw [map_prod_eraseIdx c r.substrates
        (locate (r.substrates.map m.pos) (r.transition.getD p 0)).1 hjlt ""]
      have hcnz := hc (r.substrates.getD
        (locate (r.substrates.map m.pos) (r.transition.getD p 0)).1 "")
      rw [eq_comm, ← mul_div_assoc, div_eq_iff hcnz]
      ring
    · simp only [hpv, if_false, zero_mul]
      rw [List.sum_eq_zero]
      intro x hx
      simp only [List.mem_map] at hx
      obtain ⟨bs, _, rfl⟩ := hx
      rfl
  · -- outgoing part
    have hptn : ∀ bs ∈ tuplesOf m r,
        ((List.range r.substrates.length).map (fun i =>
            if r.substrates.getD i "" = v then
              (if (bs.getD i 0).testBit p then (1 : ℚ) else 0) else 0)).sum
          * exRate σ r bs
        = ((List.range r.substrates.length).map (fun i =>
            (if r.substrates.getD i "" = v then
              (if (bs.getD i 0).testBit p then (1 : ℚ) else 0) else 0)
              * exRate σ r bs)).sum := by
      intro bs _
      rw [sum_map_mul_right']
    rw [List.map_congr_left hptn, sum_map_comm]
    have hpti : ∀ i ∈ List.range r.substrates.length,
        ((tuplesOf m r).map (fun bs =>
          (if r.substrates.getD i "" = v then
            (if (bs.getD i 0).testBit p then (1 : ℚ) else 0) else 0)
            * exRate σ r bs)).sum
        = (if r.substrates.getD i "" = v then (1 : ℚ) else 0)
            * (flux c r * (marg m σ v p / c v)) := by
      intro i hi
      rw [List.mem_range] at hi
      by_cases hsv : r.substrates.getD i "" = v
      · simp only [hsv, if_true, one_mul]
        have hptr : ∀ bs ∈ tuplesOf m r,
            (if (bs.getD i 0).testBit p then (1 : ℚ) else 0) * exRate σ r bs
            = r.k * ((List.zipWith (fun s b => σ s b) r.substrates bs).prod
                * (if (bs.getD i 0).testBit p then (1 : ℚ) else 0)) := by
          intro bs _
          unfold exRate
          ring
        rw [List.map_congr_left hptr, sum_map_mul_left']
        rw [tuplesOf]
        rw [sum_tuples_margsel m σ c hcons r.substrates i hi p]
        rw [hsv]
        unfold flux
        rw [map_prod_eraseIdx c r.substrates i hi "", hsv]
        have hcnz := hc v
        rw [eq_comm, ← mul_div_assoc, div_eq_iff hcnz]
        ring
      · simp only [hsv, if_false, zero_mul]
        rw [List.sum_eq_zero]
        intro x hx
        simp only [List.mem_map] at hx
        obtain ⟨bs, _, rfl⟩ := hx
        rfl
    rw [List.map_congr_left hpti, sum_map_mul_right']
    congr 1
    exact sum_range_getD r.substrates "" (fun s => if s = v then (1 : ℚ) else 0)

/-- Marginal label flow of the whole expanded model: incoming fluxes times
the source fractions minus the total outgoing flux times the own
fraction. -/
lemma exRhs_marg (m : LModel) (σ : String → ℕ → ℚ) (c : String → ℚ)
    (hwf : m.wf) (hwfT : m.wfT) (hcons : ∀ s, total m σ s = c s) (hc : ∀ s, c s ≠ 0)
    (v : String) (p : ℕ) (hp : p < m.pos v) :
    ((List.range (2 ^ m.pos v)).map (fun b => if b.testBit p then exRhs m σ v b else 0)).sum
    = (m.reactions.map (fun r =>
        if r.product = v then
          flux c r * (marg m σ (srcOf m.label_variables r p).1
            (srcOf m.label_variables r p).2 / c (srcOf m.label_variables r p).1)
        else 0)).sum
      - (m.reactions.map (fun r =>
          ((r.substrates.map (fun s => if s = v then (1 : ℚ) else 0)).sum) * flux c r)).sum
        * (marg m σ v p / c v) := by
  have hpt : ∀ b ∈ List.range (2 ^ m.pos v),
      (if b.testBit p then exRhs m σ v b else 0)
      = (m.reactions.map (fun r => if b.testBit p then
          ((tuplesOf m r).map (fun bs => exCoef m r bs v b * exRate σ r bs)).sum else 0)).sum := by
    intro b _
    by_cases hb : b.testBit p
    · rw [if_pos hb, exRhs]
      apply congrArg List.sum
      apply List.map_congr_left
      intro r _
      rw [if_pos hb]
    · rw [if_neg hb, eq_comm]
      apply List.sum_eq_zero
      intro x hx
      simp only [List.mem_map] at hx
      obtain ⟨r, _, rfl⟩ := hx
      rw [if_neg hb]
  rw [List.map_congr_left hpt, sum_map_comm]
  have hptr : ∀ r ∈ m.reactions,
      ((List.range (2 ^ m.pos v)).map (fun b => if b.testBit p then
          ((tuplesOf m r).map (fun bs => exCoef m r bs v b * exRate σ r bs)).sum else 0)).sum
      = (if r.product = v then
          flux c r * (marg m σ (srcOf m.label_variables r p).1
            (srcOf m.label_variables r p).2 / c (srcOf m.label_variables r p).1)
        else 0)
        - ((r.substrates.map (fun s => if s = v then (1 : ℚ) else 0)).sum)
          * (flux c r * (marg m σ v p / c v)) := by
    intro r hr
    exact reaction_marg m σ c hcons hc r (hwf r hr) (hwfT r hr) v p hp
  rw [List.map_congr_left hptr, sum_map_sub']
  congr 1
  rw [← sum_map_mul_right']
  apply congrArg List.sum
  apply List.map_congr_left
  intro r _
  ring

/-- The base right-hand side splits into incoming flux minus outgoing
flux. -/
lemma baseRhs_split (m : LModel) (c : String → ℚ) (v : String) :
    baseRhs m c v
      = (m.reactions.map (fun r => if r.product = v then flux c r else 0)).sum
        - (m.reactions.map (fun r =>
            ((r.substrates.map (fun s => if s = v then (1 : ℚ) else 0)).sum)
              * flux c r)).sum := by
  unfold baseRhs
  rw [← sum_map_sub']
  apply congrArg List.sum
  apply List.map_congr_left
  intro r _
  unfold coefBase baseRate flux
  by_cases hpv : r.product = v
  · rw [if_pos hpv, if_pos hpv]
    ring
  · rw [if_neg hpv, if_neg hpv]
    ring

/-- At a steady state the base trajectory is constant. -/
lemma eulerBase_steady (m : LModel) (h : ℚ) (c : String → ℚ)
    (hst : ∀ v, baseRhs m c v = 0) : ∀ t v, eulerBase m h c t v = c v := by
  intro t
  induction t with
  | zero => intro v; rfl
  | succ t ih =>
    intro v
    have hfun : eulerBase m h c t = c := funext ih
    show eulerBase m h c t v + h * baseRhs m (eulerBase m h c t) v = c v
    rw [hfun, hst v, mul_zero, add_zero]

/-- The state entries generated per labeled variable, with a size function
per position count: `f = id` gives the linear label model's one entry per
label position, `f = (2 ^ ·)` the full model's one entry per bitmask. -/
def posList (f : ℕ → ℕ) (lv : List (String × ℕ)) : List (String × ℕ) :=
  lv.flatMap (fun vn => (List.range (f vn.2)).map (fun p => (vn.1, p)))

/-- Unfolding one labeled variable's block of state entries. -/
lemma posList_cons (f : ℕ → ℕ) (w : String) (n : ℕ) (rest : List (String × ℕ)) :
    posList f ((w, n) :: rest)
      = (List.range (f n)).map (fun p => (w, p)) ++ posList f rest := by
  simp [posList, List.flatMap_cons]

/-- An unlisted variable owns no state entries. -/
lemma posList_filter_not_mem (f : ℕ → ℕ) (lv : List (String × ℕ)) (v : String)
    (hnm : v ∉ lv.map Prod.fst) :
    (posList f lv).filter (fun e => e.1 == v) = [] := by
  induction lv with
  | nil => simp [posList]
  | cons wn rest ih =>
    obtain ⟨w, n⟩ := wn
    simp only [List.map_cons, List.mem_cons] at hnm
    push_neg at hnm
    rw [posList_cons, List.filter_append]
    have hblock : ((List.range (f n)).map (fun p => (w, p))).filter
        (fun e => e.1 == v) = [] := by
      rw [List.filter_map]
      have : ((List.range (f n)).filter ((fun (e : String × ℕ) => e.1 == v)
          ∘ (fun p => (w, p)))) = [] := by
        apply List.filter_eq_nil_iff.mpr
        intro p _
        simpa using fun hc => hnm.1 hc.symm
      rw [this, List.map_nil]
    rw [hblock]
    simpa using ih hnm.2

/-- Each labeled variable owns exactly `f n` state entries. -/
lemma posList_filter_count (f : ℕ → ℕ) (lv : List (String × ℕ))
    (hnd : (lv.map Prod.fst).Nodup) (v : String) (n : ℕ) (hm : (v, n) ∈ lv) :
    ((posList f lv).filter (fun e => e.1 == v)).length = f n := by
  induction lv with
  | nil => simp at hm
  | cons wn rest ih =>
    obtain ⟨w, m0⟩ := wn
    simp only [List.map_cons, List.nodup_cons, List.mem_map] at hnd
    obtain ⟨hwm, hnd'⟩ := hnd
    rw [posList_cons, List.filter_append]
    rcases List.mem_cons.mp hm with h | h
    · have hv : w = v := (congrArg Prod.fst h).symm
      have hn : m0 = n := (congrArg Prod.snd h).symm
      subst hv
      subst hn
      have hnm : w ∉ rest.map Prod.fst := fun hc => by
        obtain ⟨q, hq, hqe⟩ := List.mem_map.mp hc
        exact hwm ⟨q, hq, hqe⟩
      have hrest := posList_filter_not_mem f rest w hnm
      rw [hrest]
      rw [List.filter_map]
      have hfull : ((List.range (f m0)).filter ((fun (e : String × ℕ) => e.1 == w)
          ∘ (fun p => (w, p)))) = List.range (f m0) := by
        apply List.filter_eq_self.mpr
        intro p _
        simp
      rw [hfull]
      simp
    · have hv : w ≠ v := fun hc => by
        apply hwm
        exact ⟨(v, n), h, hc ▸ rfl⟩
      have hblock : ((List.range (f m0)).map (fun p => (w, p))).filter
          (fun e => e.1 == v) = [] := by
        rw [List.filter_map]
        have : ((List.range (f m0)).filter ((fun (e : String × ℕ) => e.1 == v)
            ∘ (fun p => (w, p)))) = [] := by
          apply List.filter_eq_nil_iff.mpr
          intro p _
          simpa using hv
        rw [this, List.map_nil]
      rw [hblock]
      simpa using ih hnd' h

/-- C5: at a steady state of the base model (fixed concentrations and
fluxes, balanced at every variable), simulating the LinearLabelMapper-built
model reproduces exactly the label distribution of the full
LabelMapper-built model on the same time grid: the per-position label
fractions of the full model's trajectory coincide with the linear model's
trajectory started from the same fractions; and the linear model carries n
state entries per labeled variable instead of the full model's 2^n. -/
theorem linear_label_refinement (m : LModel) (c : String → ℚ) (h : ℚ)
    (σ0 : String → ℕ → ℚ) (hwf : m.wf) (hwfT : m.wfT)
    (hnd : (m.label_variables.map Prod.fst).Nodup)
    (hst : ∀ v, baseRhs m c v = 0) (hc : ∀ s, c s ≠ 0)
    (hcons0 : ∀ s, total m σ0 s = c s) :
    (∀ t v p, p < m.pos v →
      marg m (eulerEx m h σ0 t) v p / c v
        = eulerLin m c h (fun w q => marg m σ0 w q / c w) t v p) ∧
    (∀ v n, (v, n) ∈ m.label_variables →
      ((posList (fun k => k) m.label_variables).filter (fun e => e.1 == v)).length = n ∧
      ((posList (fun k => 2 ^ k) m.label_variables).filter (fun e => e.1 == v)).length
        = 2 ^ n) := by
  have htotal : ∀ t s, total m (eulerEx m h σ0 t) s = c s := by
    intro t s
    rw [euler_total m h σ0 c hwf hcons0 t s, eulerBase_steady m h c hst t s]
  constructor
  · intro t
    induction t with
    | zero => intro v p hp; rfl
    | succ t ih =>
      intro v p hp
      have hsrc : ∀ r ∈ m.reactions, r.product = v →
          (srcOf m.label_variables r p).2 < m.pos (srcOf m.label_variables r p).1 := by
        intro r hr hpv
        have hplen : p < r.transition.length := by
          rw [hwf r hr, hpv]; exact hp
        have htlt := hwfT r hr (r.transition.getD p 0)
          (getD_mem_of_lt r.transition p hplen 0)
        obtain ⟨hjlt, hqlt⟩ := locate_lt (r.substrates.map m.pos) (r.transition.getD p 0) htlt
        rw [List.length_map] at hjlt
        rw [getD_map_lt m.pos r.substrates _ hjlt 0 ""] at hqlt
        rw [srcOf_pos]
        exact hqlt
      have hms : marg m (eulerEx m h σ0 (t + 1)) v p
          = marg m (eulerEx m h σ0 t) v p
            + h * ((List.range (2 ^ m.pos v)).map (fun b =>
                if b.testBit p then exRhs m (eulerEx m h σ0 t) v b else 0)).sum := by
        unfold marg
        rw [show eulerEx m h σ0 (t + 1) = fun w b =>
            eulerEx m h σ0 t w b + h * exRhs m (eulerEx m h σ0 t) w b from rfl]
        have hpt : ∀ b ∈ List.range (2 ^ m.pos v),
            (if b.testBit p then
              eulerEx m h σ0 t v b + h * exRhs m (eulerEx m h σ0 t) v b else 0)
            = (if b.testBit p then eulerEx m h σ0 t v b else 0)
              + h * (if b.testBit p then exRhs m (eulerEx m h σ0 t) v b else 0) := by
          intro b _
          by_cases hb : b.testBit p
          · rw [if_pos hb, if_pos hb, if_pos hb]
          · rw [if_neg hb, if_neg hb, if_neg hb, mul_zero, add_zero]
        rw [List.map_congr_left hpt, List.sum_map_add]
        congr 1
        exact sum_map_mul_left' _ h _
      have hm2 := exRhs_marg m (eulerEx m h σ0 t) c hwf hwfT (htotal t) hc v p hp
      have hmapz : ∀ r ∈ m.reactions,
          (if r.product = v then flux c r
            * (eulerLin m c h (fun w q => marg m σ0 w q / c w) t
                (srcOf m.label_variables r p).1 (srcOf m.label_variables r p).2
              - eulerLin m c h (fun w q => marg m σ0 w q / c w) t v p)
          else 0)
          = (if r.product = v then flux c r
              * (marg m (eulerEx m h σ0 t) (srcOf m.label_variables r p).1
                  (srcOf m.label_variables r p).2 / c (srcOf m.label_variables r p).1
                - marg m (eulerEx m h σ0 t) v p / c v)
            else 0) := by
        intro r hr
        by_cases hpv : r.product = v
        · rw [if_pos hpv, if_pos hpv, ← ih _ _ (hsrc r hr hpv), ← ih v p hp]
        · rw [if_neg hpv, if_neg hpv]
      have hsum : (m.reactions.map (fun r =>
            if r.product = v then flux c r
              * (marg m (eulerEx m h σ0 t) (srcOf m.label_variables r p).1
                  (srcOf m.label_variables r p).2 / c (srcOf m.label_variables r p).1
                - marg m (eulerEx m h σ0 t) v p / c v)
            else 0)).sum
          = (m.reactions.map (fun r =>
              if r.product = v then flux c r
                * (marg m (eulerEx m h σ0 t) (srcOf m.label_variables r p).1
                    (srcOf m.label_variables r p).2 / c (srcOf m.label_variables r p).1)
              else 0)).sum
            - (m.reactions.map (fun r => if r.product = v then flux c r else 0)).sum
              * (marg m (eulerEx m h σ0 t) v p / c v) := by
        rw [← sum_map_mul_right', ← sum_map_sub']
        apply congrArg List.sum
        apply List.map_congr_left
        intro r _
        by_cases hpv : r.product = v
        · rw [if_pos hpv, if_pos hpv, if_pos hpv]
          ring
        · rw [if_neg hpv, if_neg hpv, if_neg hpv]
          ring
      have hflux : (m.reactions.map (fun r => if r.product = v then flux c r else 0)).sum
          = (m.reactions.map (fun r =>
              ((r.substrates.map (fun s => if s = v then (1 : ℚ) else 0)).sum)
                * flux c r)).sum := by
        have h0 := hst v
        rw [baseRhs_split] at h0
        linarith
      show marg m (eulerEx m h σ0 (t + 1)) v p / c v
          = eulerLin m c h (fun w q => marg m σ0 w q / c w) t v p
            + h * linRhs m c (eulerLin m c h (fun w q => marg m σ0 w q / c w) t) v p
      rw [hms, hm2]
      unfold linRhs
      rw [List.map_congr_left hmapz, hsum, hflux, ← ih v p hp]
      rw [add_div, mul_div_assoc]
  · intro v n hm
    exact ⟨posList_filter_count (fun k => k) m.label_variables hnd v n hm,
      posList_filter_count (fun k => 2 ^ k) m.label_variables hnd v n hm⟩

/-- Concrete steady-state model for the C5 witness: a reversible
isomerization A ⇌ B with one label position on each side and unit rate
constants, so unit concentrations are a flux-balanced steady state. -/
def mC5 : LModel where
  label_variables := [("A", 1), ("B", 1)]
  init := fun _ => 1
  reactions := [⟨1, ["A"], "B", [0]⟩, ⟨1, ["B"], "A", [0]⟩]

/-- Initial expanded state for the C5 witness: A fully labeled, B fully
unlabeled, everything at total concentration one. -/
def σC5 : String → ℕ → ℚ := fun v b =>
  if v = "A" then (if b = 1 then 1 else 0) else (if b = 0 then 1 else 0)

/-- The witness state's variant totals all equal the steady concentration
one. -/
lemma σC5_total : ∀ s, total mC5 σC5 s = 1 := by
  intro s
  have hr1 : List.range 1 = [0] := by decide
  have hr2 : List.range 2 = [0, 1] := by decide
  unfold total mC5 LModel.pos
  by_cases hA : s = "A"
  · simp only [posOf, hA, if_true, if_false]
    rw [pow_one, hr2]
    simp [σC5]
  · by_cases hB : s = "B"
    · simp only [posOf, hB, if_true, if_false]
      rw [show (if ("A" : String) = "B" then 1 else 1) = 1 from by norm_num, pow_one, hr2]
      simp [σC5, hA]
    · have hA' : "A" ≠ s := fun hc => hA hc.symm
      have hB' : "B" ≠ s := fun hc => hB hc.symm
      simp only [posOf, hA', hB', if_false]
      rw [pow_zero, hr1]
      simp [σC5, hA]

/-- Unit concentrations are a steady state of the witness model. -/
lemma mC5_steady : ∀ v, baseRhs mC5 (fun _ => (1 : ℚ)) v = 0 := by
  intro v
  unfold baseRhs coefBase baseRate mC5
  simp

/-- Witness for C5: on the reversible isomerization at its unit steady
state, after two Euler steps the label fraction of B's position 0 in the
full expanded model equals the linear label model's trajectory value,
discharging the well-formedness, no-duplicate, steady-state, nonzero
concentration and conservation hypotheses at this input. -/
theorem linear_label_refinement_witness :
    ((mC5.label_variables.map Prod.fst).Nodup) ∧
    marg mC5 (eulerEx mC5 (1/2) σC5 2) "B" 0 / (fun _ => (1 : ℚ)) "B"
      = eulerLin mC5 (fun _ => (1 : ℚ)) (1/2)
          (fun w q => marg mC5 σC5 w q / (fun _ => (1 : ℚ)) w) 2 "B" 0 := by
  refine ⟨by decide, ?_⟩
  exact (linear_label_refinement mC5 (fun _ => 1) (1/2) σC5
    (by unfold LModel.wf; decide) (by unfold LModel.wfT; decide) (by decide)
    mC5_steady (fun s => one_ne_zero) σC5_total).1 2 "B" 0 (by decide)

end Modelbase2
